import Mathlib

set_option maxHeartbeats 1000000

namespace Apisnip

/-- Ordered document tree, mirroring the serde_yaml `Value` used throughout
`src/spec_processor.rs` (mappings keep insertion order, like the IndexMap-backed
`serde_yaml::Mapping`). -/
inductive Value where
  | null : Value
  | bool (b : Bool) : Value
  | num (n : Int) : Value
  | str (s : String) : Value
  | seq (items : List Value) : Value
  | map (entries : List (Value × Value)) : Value

mutual
/-- Structural boolean equality on document values. -/
def beqV : Value → Value → Bool
  | .null, .null => true
  | .bool a, .bool b => a == b
  | .num a, .num b => a == b
  | .str a, .str b => a == b
  | .seq xs, .seq ys => beqSeq xs ys
  | .map xs, .map ys => beqMap xs ys
  | _, _ => false

def beqSeq : List Value → List Value → Bool
  | [], [] => true
  | x :: xs, y :: ys => beqV x y && beqSeq xs ys
  | _, _ => false

def beqMap : List (Value × Value) → List (Value × Value) → Bool
  | [], [] => true
  | (k1, v1) :: xs, (k2, v2) :: ys => beqV k1 k2 && beqV v1 v2 && beqMap xs ys
  | _, _ => false
end

mutual
theorem beqV_eq : ∀ a b : Value, beqV a b = true → a = b
  | .null, .null, _ => rfl
  | .null, .bool _, h => by simp [beqV] at h
  | .null, .num _, h => by simp [beqV] at h
  | .null, .str _, h => by simp [beqV] at h
  | .null, .seq _, h => by simp [beqV] at h
  | .null, .map _, h => by simp [beqV] at h
  | .bool _, .null, h => by simp [beqV] at h
  | .bool x, .bool y, h => congrArg Value.bool (by simpa [beqV] using h)
  | .bool _, .num _, h => by simp [beqV] at h
  | .bool _, .str _, h => by simp [beqV] at h
  | .bool _, .seq _, h => by simp [beqV] at h
  | .bool _, .map _, h => by simp [beqV] at h
  | .num _, .null, h => by simp [beqV] at h
  | .num _, .bool _, h => by simp [beqV] at h
  | .num x, .num y, h => congrArg Value.num (by simpa [beqV] using h)
  | .num _, .str _, h => by simp [beqV] at h
  | .num _, .seq _, h => by simp [beqV] at h
  | .num _, .map _, h => by simp [beqV] at h
  | .str _, .null, h => by simp [beqV] at h
  | .str _, .bool _, h => by simp [beqV] at h
  | .str _, .num _, h => by simp [beqV] at h
  | .str x, .str y, h => congrArg Value.str (by simpa [beqV] using h)
  | .str _, .seq _, h => by simp [beqV] at h
  | .str _, .map _, h => by simp [beqV] at h
  | .seq _, .null, h => by simp [beqV] at h
  | .seq _, .bool _, h => by simp [beqV] at h
  | .seq _, .num _, h => by simp [beqV] at h
  | .seq _, .str _, h => by simp [beqV] at h
  | .seq xs, .seq ys, h => congrArg Value.seq (beqSeq_eq xs ys (by simpa [beqV] using h))
  | .seq _, .map _, h => by simp [beqV] at h
  | .map _, .null, h => by simp [beqV] at h
  | .map _, .bool _, h => by simp [beqV] at h
  | .map _, .num _, h => by simp [beqV] at h
  | .map _, .str _, h => by simp [beqV] at h
  | .map _, .seq _, h => by simp [beqV] at h
  | .map xs, .map ys, h => congrArg Value.map (beqMap_eq xs ys (by simpa [beqV] using h))

theorem beqSeq_eq : ∀ xs ys : List Value, beqSeq xs ys = true → xs = ys
  | [], [], _ => rfl
  | [], _ :: _, h => by simp [beqSeq] at h
  | _ :: _, [], h => by simp [beqSeq] at h
  | x :: xs, y :: ys, h => by
    have h' := h
    simp only [beqSeq, Bool.and_eq_true] at h'
    exact congrArg₂ (· :: ·) (beqV_eq x y h'.1) (beqSeq_eq xs ys h'.2)

theorem beqMap_eq : ∀ xs ys : List (Value × Value), beqMap xs ys = true → xs = ys
  | [], [], _ => rfl
  | [], _ :: _, h => by simp [beqMap] at h
  | _ :: _, [], h => by simp [beqMap] at h
  | (k1, v1) :: xs, (k2, v2) :: ys, h => by
    have h' := h
    simp only [beqMap, Bool.and_eq_true] at h'
    have e1 := beqV_eq k1 k2 h'.1.1
    have e2 := beqV_eq v1 v2 h'.1.2
    have e3 := beqMap_eq xs ys h'.2
    simp [e1, e2, e3]
end

mutual
theorem beqV_rfl : ∀ a : Value, beqV a a = true
  | .null => rfl
  | .bool x => by simp [beqV]
  | .num x => by simp [beqV]
  | .str x => by simp [beqV]
  | .seq xs => by simpa [beqV] using beqSeq_rfl xs
  | .map xs => by simpa [beqV] using beqMap_rfl xs

theorem beqSeq_rfl : ∀ xs : List Value, beqSeq xs xs = true
  | [] => rfl
  | x :: xs => by simp [beqSeq, beqV_rfl x, beqSeq_rfl xs]

theorem beqMap_rfl : ∀ xs : List (Value × Value), beqMap xs xs = true
  | [] => rfl
  | (k, v) :: xs => by simp [beqMap, beqV_rfl k, beqV_rfl v, beqMap_rfl xs]
end

instance : DecidableEq Value := fun a b =>
  if h : beqV a b then .isTrue (beqV_eq a b h)
  else .isFalse (fun he => h (he ▸ beqV_rfl a))

/-- A `serde_yaml::Mapping`: an ordered association list of document values. -/
abbrev Mapping := List (Value × Value)

/-- A parsed component reference: (component_type, component_name). -/
abbrev Pair := String × String

def Value.as_str : Value → Option String
  | .str s => some s
  | _ => none

def Value.as_mapping : Value → Option Mapping
  | .map m => some m
  | _ => none

def Value.as_sequence : Value → Option (List Value)
  | .seq xs => some xs
  | _ => none

/-- `Mapping::get`: first entry whose key equals `key` (IndexMap lookup). -/
def mapGet : Mapping → Value → Option Value
  | [], _ => none
  | (k, v) :: rest, key => if k = key then some v else mapGet rest key

/-- `Mapping::insert` (IndexMap semantics): replace in place if the key exists,
otherwise append at the end. -/
def mapInsert : Mapping → Value → Value → Mapping
  | [], k, v => [(k, v)]
  | (k', v') :: rest, k, v => if k' = k then (k, v) :: rest else (k', v') :: mapInsert rest k v

/-- The keys of a mapping, in order. -/
def mapKeys (m : Mapping) : List Value := m.map Prod.fst

/-- Keys of a mapping are pairwise distinct; always true for parsed documents
(IndexMap cannot hold duplicate keys). -/
def keysNodup (m : Mapping) : Prop := (m.map Prod.fst).Nodup

instance (m : Mapping) : Decidable (keysNodup m) := by
  unfold keysNodup
  infer_instance

/-- Rust `str::split('/')` specialised to the slash separator. -/
def splitSlashAux : List Char → List Char → List String
  | [], acc => [String.mk acc.reverse]
  | ch :: cs, acc =>
    if ch = '/' then String.mk acc.reverse :: splitSlashAux cs []
    else splitSlashAux cs (ch :: acc)

def splitSlash (s : String) : List String := splitSlashAux s.toList []

/-- Rust `[&str]::join("/")`. -/
def joinSlash : List String → String
  | [] => ""
  | [x] => x
  | x :: y :: rest => x ++ "/" ++ joinSlash (y :: rest)

/-- Rust `str::starts_with` (byte prefix, equivalently character-list prefix). -/
def strStartsWith (s pat : String) : Bool := pat.toList.isPrefixOf s.toList

/-- The `$ref` entry of a mapping, when present with a string value
(`if let Some(Value::String(ref_str)) = map.get("$ref")`). -/
def refHead (m : Mapping) : List String :=
  match mapGet m (.str "$ref") with
  | some (.str s) => [s]
  | _ => []

mutual
/-- `fetch_all_references` from src/spec_processor.rs: recursively collect every
`$ref` string value in a document subtree. -/
def fetch_all_references : Value → List String
  | .null => []
  | .bool _ => []
  | .num _ => []
  | .str _ => []
  | .seq xs => refsOfSeq xs
  | .map m => refHead m ++ refsOfMap m

def refsOfSeq : List Value → List String
  | [] => []
  | v :: vs => fetch_all_references v ++ refsOfSeq vs

def refsOfMap : List (Value × Value) → List String
  | [] => []
  | (_, v) :: rest => fetch_all_references v ++ refsOfMap rest
end

/-- `strip_path_from_references`: keep only the trailing segment of each ref. -/
def strip_path_from_references (references : List String) : List String :=
  references.map (fun r => (splitSlash r).getLastD "")

/-- Itertools `unique()`: deduplicate keeping the first occurrence. -/
def uniqueKeepFirstAux : List String → List String → List String
  | [], _ => []
  | x :: xs, seen =>
    if x ∈ seen then uniqueKeepFirstAux xs seen
    else x :: uniqueKeepFirstAux xs (x :: seen)

def uniqueKeepFirst (l : List String) : List String := uniqueKeepFirstAux l []

/-- `parse_component_ref`: parse `#/components/<category>/<name>` into
`(component_type, component_name)`; any other shape yields `none`. -/
def parse_component_ref (ref_str : String) : Option Pair :=
  if strStartsWith ref_str "#/components/" then
    match splitSlash ref_str with
    | _ :: _ :: c :: rest =>
      if rest.length ≥ 1 then some (c, joinSlash rest) else none
    | _ => none
  else none

/-- Selection status of an endpoint. -/
inductive Status where
  | Unselected : Status
  | Selected : Status
deriving DecidableEq

/-- One HTTP method row of an endpoint. -/
structure Method where
  method : String
  description : String
deriving DecidableEq

/-- One endpoint table row (src/spec_processor.rs `Endpoint`). -/
structure Endpoint where
  methods : List Method
  path : String
  description : String
  refs : List String
  status : Status
  parameters : List String
deriving DecidableEq

/-- `extract_parameters`: pull location-prefixed parameter names out of a
`parameters` array. -/
def extract_parameters (params_array : List Value) : List String :=
  params_array.flatMap fun param =>
    match param.as_mapping with
    | some param_map =>
      match mapGet param_map (.str "name") with
      | some name_value =>
        match name_value.as_str with
        | some name =>
          let pfx :=
            match mapGet param_map (.str "in") with
            | some in_value =>
              match in_value.as_str with
              | some t =>
                if t = "path" then "/"
                else if t = "body" then "body:"
                else if t = "query" then "?"
                else ""
              | none => ""
            | none => ""
          [pfx ++ name]
        | none => []
      | none => []
    | none => []

/-- Accumulator for one path item while scanning its key/value pairs. -/
structure PathAcc where
  description : String
  params : List String
  methods : List Method
  refs : List String
deriving DecidableEq

/-- The per-path-item loop body of `fetch_endpoints_from_spec`
(src/spec_processor.rs lines 48-92): classify each key of the path item. -/
def processOps : List (Value × Value) → PathAcc → Option PathAcc
  | [], acc => some acc
  | (ops_method, op) :: rest, acc =>
    match ops_method.as_str with
    | none => none
    | some method_str =>
      if method_str = "summary" then
        processOps rest { acc with description := (op.as_str).getD "" }
      else if method_str = "description" ∧ acc.description = "" then
        processOps rest { acc with description := (op.as_str).getD "" }
      else
        let summary := (((op.as_mapping).bind fun m => mapGet m (.str "summary")).bind Value.as_str).getD ""
        let descr := (((op.as_mapping).bind fun m => mapGet m (.str "description")).bind Value.as_str).getD "No description"
        let params' :=
          match op.as_mapping with
          | some op_map =>
            match mapGet op_map (.str "parameters") with
            | some pv =>
              match pv.as_sequence with
              | some pa => acc.params ++ extract_parameters pa
              | none => acc.params
            | none => acc.params
          | none => acc.params
        processOps rest
          { description := acc.description
            params := params'
            methods := acc.methods ++ [{ method := method_str, description := if summary ≠ "" then summary else descr }]
            refs := acc.refs ++ fetch_all_references op }

/-- Build one `Endpoint` from a `paths` entry; `none` models the panics on a
non-string path key or a non-mapping path item. -/
def processPathEntry (path : Value) (ops : Value) : Option Endpoint := do
  let path_str ← path.as_str
  let ops_map ← ops.as_mapping
  let acc ← processOps ops_map ⟨"", [], [], []⟩
  some
    { methods := acc.methods
      path := path_str
      description := acc.description
      refs := uniqueKeepFirst (strip_path_from_references acc.refs)
      status := .Unselected
      parameters := acc.params }

def processPaths : List (Value × Value) → Option (List Endpoint)
  | [] => some []
  | (p, ops) :: rest => do
    let e ← processPathEntry p ops
    let es ← processPaths rest
    some (e :: es)

/-- Byte-wise (code-point-wise) lexicographic comparison of character lists,
the order `str::cmp` sorts by in `table_items.sort_by(|a, b| a.path.cmp(&b.path))`. -/
def charListLe : List Char → List Char → Bool
  | [], _ => true
  | _ :: _, [] => false
  | a :: as, b :: bs => if a < b then true else if b < a then false else charListLe as bs

/-- The sort relation of the endpoint table: ascending by path. -/
def pathLe (a b : Endpoint) : Prop := charListLe a.path.toList b.path.toList = true

instance : DecidableRel pathLe :=
  fun a b => inferInstanceAs (Decidable (charListLe a.path.toList b.path.toList = true))

theorem charListLe_total : ∀ as bs : List Char, charListLe as bs = true ∨ charListLe bs as = true
  | [], _ => Or.inl rfl
  | _ :: _, [] => Or.inr rfl
  | a :: as, b :: bs => by
    rcases lt_trichotomy a b with h | h | h
    · left
      simp [charListLe, h]
    · subst h
      rcases charListLe_total as bs with h' | h'
      · left
        simp [charListLe, lt_irrefl, h']
      · right
        simp [charListLe, lt_irrefl, h']
    · right
      simp [charListLe, h]

theorem charListLe_trans : ∀ as bs cs : List Char,
    charListLe as bs = true → charListLe bs cs = true → charListLe as cs = true
  | [], _, _, _, _ => rfl
  | _ :: _, [], _, h1, _ => by simp [charListLe] at h1
  | _ :: _, _ :: _, [], _, h2 => by simp [charListLe] at h2
  | a :: as, b :: bs, c :: cs, h1, h2 => by
    simp only [charListLe] at h1 h2 ⊢
    by_cases hab : a < b
    · by_cases hbc : b < c
      · rw [if_pos (lt_trans hab hbc)]
      · by_cases hcb : c < b
        · rw [if_neg hbc, if_pos hcb] at h2
          exact absurd h2 (by simp)
        · obtain rfl : b = c := le_antisymm (not_lt.mp hcb) (not_lt.mp hbc)
          rw [if_pos hab]
    · rw [if_neg hab] at h1
      by_cases hba : b < a
      · rw [if_pos hba] at h1
        exact absurd h1 (by simp)
      · obtain rfl : a = b := le_antisymm (not_lt.mp hba) (not_lt.mp hab)
        rw [if_neg (lt_irrefl a)] at h1
        by_cases hac : a < c
        · rw [if_pos hac]
        · by_cases hca : c < a
          · rw [if_neg hac, if_pos hca] at h2
            exact absurd h2 (by simp)
          · rw [if_neg hac, if_neg hca] at h2 ⊢
            exact charListLe_trans as bs cs h1 h2

instance : IsTotal Endpoint pathLe :=
  ⟨fun a b => charListLe_total a.path.toList b.path.toList⟩

instance : IsTrans Endpoint pathLe :=
  ⟨fun _ _ _ hab hbc => charListLe_trans _ _ _ hab hbc⟩

/-- `fetch_endpoints_from_spec` (src/spec_processor.rs lines 29-104): build the
endpoint table and sort it ascending by path. -/
def fetch_endpoints_from_spec (spec : Mapping) : Option (List Endpoint) := do
  let pathsV ← mapGet spec (.str "paths")
  let pm ← pathsV.as_mapping
  let items ← processPaths pm
  some (List.insertionSort pathLe items)

/-! Transitive reference closure (`collect_transitive_references`,
src/spec_processor.rs lines 185-222). The Rust worklist uses a `HashSet` for
`all_refs` and a `Vec` stack `to_process`; both are modelled as lists, with
membership the only operation the algorithm observes. The unbounded `while`
loop is modelled with an explicit fuel that provably suffices. -/

/-- Parse the initial reference strings, keeping the parseable ones. -/
def seedPairs (initial_refs : List String) : List Pair :=
  initial_refs.filterMap parse_component_ref

/-- Push each pair not yet in the visited set onto both the visited set and the
work stack (`if all_refs.insert(key) { to_process.push(key) }`). -/
def pushNew : List Pair → List Pair × List Pair → List Pair × List Pair
  | [], st => st
  | p :: ps, (visited, stack) =>
    if p ∈ visited then pushNew ps (visited, stack)
    else pushNew ps (p :: visited, p :: stack)

/-- Look up `components[comp_type][comp_name]`. -/
def lookupComponent (components : Mapping) (p : Pair) : Option Value :=
  match mapGet components (.str p.1) with
  | some comp_section =>
    match comp_section.as_mapping with
    | some comp_mapping => mapGet comp_mapping (.str p.2)
    | none => none
  | none => none

/-- The parseable component references found inside one component's definition;
empty when the lookup fails (the failed lookup is skipped silently). -/
def nestedPairs (components : Mapping) (p : Pair) : List Pair :=
  match lookupComponent components p with
  | some comp_value => (fetch_all_references comp_value).filterMap parse_component_ref
  | none => []

/-- The worklist loop of `collect_transitive_references`, with fuel. -/
def ctrLoop (components : Mapping) : Nat → List Pair → List Pair → List Pair
  | 0, visited, _ => visited
  | _ + 1, visited, [] => visited
  | fuel + 1, visited, p :: stack =>
    let st := pushNew (nestedPairs components p) (visited, stack)
    ctrLoop components fuel st.1 st.2

/-- Every parseable reference occurring anywhere inside the values of
`components`; an upper bound for the pairs the worklist can ever discover. -/
def compRefPairs (components : Mapping) : List Pair :=
  (refsOfMap components).filterMap parse_component_ref

/-- Visited set and stack after seeding the worklist from the initial refs. -/
def ctrSeeded (initial_refs : List String) : List Pair × List Pair :=
  pushNew (seedPairs initial_refs) ([], [])

/-- Fuel that provably suffices for the worklist to drain its stack. -/
def ctrFuel (components : Mapping) (initial_refs : List String) : Nat :=
  (compRefPairs components).length + (ctrSeeded initial_refs).2.length + 1

/-- `collect_transitive_references`: the set of `(component_type, component_name)`
pairs transitively reachable from the initial references. -/
def collect_transitive_references (components : Mapping) (initial_refs : List String) : List Pair :=
  ctrLoop components (ctrFuel components initial_refs)
    (ctrSeeded initial_refs).1 (ctrSeeded initial_refs).2

/-- `extract_security_schemes` (src/spec_processor.rs lines 225-249): scheme
names from a security requirement in list-of-mappings or mapping form. -/
def extract_security_schemes : Value → List String
  | .seq seq =>
    seq.flatMap fun item =>
      match item.as_mapping with
      | some m => m.filterMap fun kv => kv.1.as_str
      | none => []
  | .map m => m.filterMap fun kv => kv.1.as_str
  | _ => []

/-- The `components` section of the document, defaulting to an empty mapping. -/
def componentsOf (spec : Mapping) : Mapping :=
  match (mapGet spec (.str "components")).bind Value.as_mapping with
  | some m => m
  | none => []

/-- The pruned `paths` mapping: for each selected endpoint, the original path
item looked up by exact path string. -/
def selectedPathsMap (pm : Mapping) (selected : List Endpoint) : Mapping :=
  selected.foldl
    (fun acc item =>
      match mapGet pm (.str item.path) with
      | some path_data => mapInsert acc (.str item.path) path_data
      | none => acc)
    []

/-- All `$ref` strings found in the selected endpoints' path-item subtrees. -/
def initialRefs (pm : Mapping) (selected : List Endpoint) : List String :=
  selected.flatMap fun item =>
    match mapGet pm (.str item.path) with
    | some path_data => fetch_all_references path_data
    | none => []

/-- Security scheme names gathered from each selected operation's `security`
requirement plus the document's top-level `security` requirement. -/
def securitySchemesOf (spec : Mapping) (pm : Mapping) (selected : List Endpoint) : List String :=
  (selected.flatMap fun item =>
    match mapGet pm (.str item.path) with
    | some path_data =>
      match path_data.as_mapping with
      | some path_map =>
        path_map.flatMap fun kv =>
          match kv.2.as_mapping with
          | some op_map =>
            match mapGet op_map (.str "security") with
            | some security => extract_security_schemes security
            | none => []
          | none => []
      | none => []
    | none => [])
  ++ (match mapGet spec (.str "security") with
      | some security => extract_security_schemes security
      | none => [])

/-- Keep-condition for a member of a components category
(src/spec_processor.rs lines 325-327). -/
def keepProp (child_key_str : String) (closure : List Pair) (schemes : List String)
    (kv : Value × Value) : Prop :=
  (child_key_str, (kv.1.as_str).getD "") ∈ closure ∨
    (child_key_str = "securitySchemes" ∧ (kv.1.as_str).getD "" ∈ schemes)

instance (c : String) (cl : List Pair) (sch : List String) (kv : Value × Value) :
    Decidable (keepProp c cl sch kv) := by
  unfold keepProp
  infer_instance

/-- Filter one components category, keeping members in the closure (or named
security schemes). -/
def filterSectionAux (child_key_str : String) (closure : List Pair) (schemes : List String) :
    List (Value × Value) → Mapping → Mapping
  | [], filtered => filtered
  | kv :: rest, filtered =>
    filterSectionAux child_key_str closure schemes rest
      (if keepProp child_key_str closure schemes kv then mapInsert filtered kv.1 kv.2 else filtered)

/-- The filtered section for one components category entry. -/
def sectionOut (child_key_str : String) (closure : List Pair) (schemes : List String)
    (child_value : Value) : Mapping :=
  match child_value.as_mapping with
  | some section_map => filterSectionAux child_key_str closure schemes section_map []
  | none => []

/-- One entry of the output `components`: omitted entirely when the filtered
section is empty. -/
def componentEntryOut (closure : List Pair) (schemes : List String) (kv : Value × Value) :
    Option (Value × Value) :=
  let fs := sectionOut ((kv.1.as_str).getD "") closure schemes kv.2
  if fs = [] then none else some (kv.1, Value.map fs)

/-- Rebuild the `components` mapping with only surviving members. -/
def filterComponentsAux (closure : List Pair) (schemes : List String) :
    List (Value × Value) → Mapping → Mapping
  | [], components_output => components_output
  | kv :: rest, components_output =>
    filterComponentsAux closure schemes rest
      (match componentEntryOut closure schemes kv with
       | some out_kv => mapInsert components_output out_kv.1 out_kv.2
       | none => components_output)

def filterComponents (closure : List Pair) (schemes : List String) (value : Value) : Mapping :=
  match value.as_mapping with
  | some components_map => filterComponentsAux closure schemes components_map []
  | none => []

/-- The per-key transformation of the output loop: `paths` is replaced by the
pruned paths, `components` by the filtered components, all else copied. -/
def transformVal (closure : List Pair) (schemes : List String) (paths : Mapping)
    (key value : Value) : Value :=
  if key.as_str = some "paths" then Value.map paths
  else if key.as_str = some "components" then Value.map (filterComponents closure schemes value)
  else value

/-- The output-building loop over the original key order
(src/spec_processor.rs lines 309-345). -/
def buildOutputAux (spec : Mapping) (closure : List Pair) (schemes : List String)
    (paths : Mapping) : List Value → Mapping → Mapping
  | [], output => output
  | key :: keys, output =>
    match mapGet spec key with
    | none => buildOutputAux spec closure schemes paths keys output
    | some value =>
      buildOutputAux spec closure schemes paths keys
        (mapInsert output key (transformVal closure schemes paths key value))

/-- The transitive closure used by `process_spec_for_output` for a given
document and selection. -/
def closureOf (spec : Mapping) (pm : Mapping) (selected : List Endpoint) : List Pair :=
  collect_transitive_references (componentsOf spec) (initialRefs pm selected)

/-- `process_spec_for_output` (src/spec_processor.rs lines 251-348): assemble
the pruned output document; `none` models the panic when `paths` is missing or
not a mapping. -/
def process_spec_for_output (spec : Mapping) (selected_items : List Endpoint) : Option Mapping :=
  match (mapGet spec (.str "paths")).bind Value.as_mapping with
  | none => none
  | some pm =>
    let paths := selectedPathsMap pm selected_items
    let schemes := securitySchemesOf spec pm selected_items
    let closure := closureOf spec pm selected_items
    some (buildOutputAux spec closure schemes paths (mapKeys spec) [])

/-! The interactive update loop of src/main.rs (lines 403-458), restricted to
the state the modelled messages touch: the endpoint table, the table cursor
(`table_state.selected()`), and the running flag. `usize` arithmetic follows
release-build semantics (wrap-around on underflow); an out-of-bounds `Vec`
index is a panic in every build. -/

inductive RunningState where
  | Running : RunningState
  | Done : RunningState
deriving DecidableEq

structure AppModel where
  table_items : List Endpoint
  selected : Option Nat
  running_state : RunningState
deriving DecidableEq

inductive Message where
  | SelectNext : Message
  | SelectPrevious : Message
  | ToggleSelectItemAndSelectNext : Message
  | WriteAndQuit : Message
  | Quit : Message
deriving DecidableEq

/-- Outcome of the final `write_spec_to_file` call. -/
inductive WriteOutcome where
  | ok : WriteOutcome
  | err (msg : String) : WriteOutcome
  | fatal (msg : String) : WriteOutcome
deriving DecidableEq

/-- `write_spec_to_file` (src/main.rs lines 467-576) given the result of the
`fs::write` collaborator: the internal `.unwrap()` turns a write failure into a
panic, so an `Err` return is impossible. -/
def write_spec_to_file (writeRes : Except String Unit) : WriteOutcome :=
  match writeRes with
  | .ok _ => .ok
  | .error e => .fatal e

/-- Result of one `update` step: the new model plus reported messages, or a
panic. -/
inductive StepResult where
  | ok (m : AppModel) (reports : List String) : StepResult
  | fatal (msg : String) : StepResult
deriving DecidableEq

def USIZE : Nat := 2 ^ 64

/-- Release-build `usize` subtraction of 1 (wraps on 0). -/
def usizeSub1 (n : Nat) : Nat := (n + (USIZE - 1)) % USIZE

/-- Flip a selection status. -/
def toggleStatus : Status → Status
  | .Selected => .Unselected
  | .Unselected => .Selected

/-- `update` (src/main.rs lines 403-458) for the modelled messages. -/
def update (writeRes : Except String Unit) (model : AppModel) : Message → StepResult
  | .WriteAndQuit =>
    match write_spec_to_file writeRes with
    | .err e =>
      .ok { model with running_state := .Done } ["Failed to write spec to file: " ++ e]
    | .ok => .ok { model with running_state := .Done } []
    | .fatal msg => .fatal msg
  | .Quit => .ok { model with running_state := .Done } []
  | .SelectNext =>
    let current_index := model.selected.getD 0
    if current_index < usizeSub1 model.table_items.length then
      .ok { model with selected := some (current_index + 1) } []
    else .ok model []
  | .SelectPrevious =>
    let current_index := model.selected.getD 0
    if current_index > 0 then
      .ok { model with selected := some (current_index - 1) } []
    else .ok model []
  | .ToggleSelectItemAndSelectNext =>
    let current_index := model.selected.getD 0
    match model.table_items.get? current_index with
    | none => .fatal "index out of bounds"
    | some item =>
      let items := model.table_items.set current_index { item with status := toggleStatus item.status }
      if current_index < usizeSub1 items.length then
        .ok { model with table_items := items, selected := some (current_index + 1) } []
      else .ok { model with table_items := items } []

/-! Reference characterisation of which path-item keys produce a `Method`,
used to state the per-endpoint claim about extraction: every key except
`summary` (always absorbed into the description) and except a `description`
key seen while the accumulated description is still empty. -/
def verbKeysAcc (desc : String) : List (Value × Value) → Option (List String)
  | [] => some []
  | (k, v) :: rest =>
    match k.as_str with
    | none => none
    | some ks =>
      if ks = "summary" then verbKeysAcc ((v.as_str).getD "") rest
      else if ks = "description" ∧ desc = "" then verbKeysAcc ((v.as_str).getD "") rest
      else (verbKeysAcc desc rest).map (ks :: ·)

/-! Concrete documents used as witnesses and counterexamples. -/

/-- Schemas A → B → C chain with an unreferenced D. -/
def smC1 : Mapping :=
  [(.str "A", .map [(.str "properties", .map [(.str "b", .map
      [(.str "$ref", .str "#/components/schemas/B")])])]),
   (.str "B", .map [(.str "$ref", .str "#/components/schemas/C")]),
   (.str "C", .map []),
   (.str "D", .map [])]

def compsMC1 : Mapping := [(.str "schemas", .map smC1)]

def pathsC1 : Mapping :=
  [(.str "/p", .map [(.str "get", .map [(.str "responses", .map
      [(.str "200", .map [(.str "$ref", .str "#/components/schemas/A")])])])])]

/-- Document whose one path references only schema A. -/
def specC1 : Mapping := [(.str "paths", .map pathsC1), (.str "components", .map compsMC1)]

def selC1 : List Endpoint :=
  [{ methods := [], path := "/p", description := "", refs := [], status := .Selected, parameters := [] }]

/-- The schemas section surviving assembly for `specC1`: A, B, C but not D. -/
def fsC1 : Mapping :=
  [(.str "A", .map [(.str "properties", .map [(.str "b", .map
      [(.str "$ref", .str "#/components/schemas/B")])])]),
   (.str "B", .map [(.str "$ref", .str "#/components/schemas/C")]),
   (.str "C", .map [])]

def coC1 : Mapping := [(.str "schemas", .map fsC1)]

def outC1 : Mapping := [(.str "paths", .map pathsC1), (.str "components", .map coC1)]

def pathsC2 : Mapping := [(.str "/a", .map [(.str "get", .map [])])]

/-- A four-key document for the frame-effect witness. -/
def specC2 : Mapping :=
  [(.str "openapi", .str "3.0.0"),
   (.str "info", .map [(.str "title", .str "t")]),
   (.str "paths", .map pathsC2),
   (.str "components", .map [(.str "schemas", .map [(.str "S", .map [])])])]

def outC2 : Mapping :=
  [(.str "openapi", .str "3.0.0"),
   (.str "info", .map [(.str "title", .str "t")]),
   (.str "paths", .map []),
   (.str "components", .map [])]

/-- Document whose only schema E is referenced by nothing: full selection
still drops it. -/
def specC3 : Mapping :=
  [(.str "openapi", .str "3.0"),
   (.str "paths", .map [(.str "/a", .map [(.str "get", .map [])])]),
   (.str "components", .map [(.str "schemas", .map [(.str "E", .map [])])])]

def pathsC3 : Mapping := [(.str "/a", .map [(.str "get", .map [])])]

def compsMC3 : Mapping := [(.str "schemas", .map [(.str "E", .map [])])]

/-- The full selection for `specC3` as extracted by the catalog. -/
def lC3 : List Endpoint :=
  [{ methods := [{ method := "get", description := "No description" }], path := "/a",
     description := "", refs := [], status := .Unselected, parameters := [] }]

/-- The assembled output for `specC3` under full selection: schema E is gone. -/
def outC3 : Mapping :=
  [(.str "openapi", .str "3.0"), (.str "paths", .map pathsC3), (.str "components", .map [])]

/-- A path item whose only key is a path-level `parameters` key. -/
def specC4 : Mapping :=
  [(.str "paths", .map [(.str "/a", .map [(.str "parameters", .seq [])])])]

def pathsC4w : Mapping :=
  [(.str "/b", .map [(.str "get", .map [(.str "summary", .str "gb")])]),
   (.str "/a", .map [(.str "post", .map [])])]

/-- Two paths with one verb key each, given out of order. -/
def specC4w : Mapping := [(.str "paths", .map pathsC4w)]

def lC4w : List Endpoint :=
  [{ methods := [{ method := "post", description := "No description" }], path := "/a",
     description := "", refs := [], status := .Unselected, parameters := [] },
   { methods := [{ method := "get", description := "gb" }], path := "/b",
     description := "", refs := [], status := .Unselected, parameters := [] }]

def pathsC5 : Mapping :=
  [(.str "/a", .map [(.str "get", .map
      [(.str "security", .seq [.map [(.str "basicAuth", .seq [])]])])])]

def ssMC5 : Mapping := [(.str "basicAuth", .map [(.str "type", .str "http")])]

def compsMC5 : Mapping := [(.str "securitySchemes", .map ssMC5)]

/-- Endpoint with an operation-level security requirement and a
securityScheme never referenced by any `$ref`. -/
def specC5 : Mapping := [(.str "paths", .map pathsC5), (.str "components", .map compsMC5)]

def selC5 : List Endpoint :=
  [{ methods := [], path := "/a", description := "", refs := [], status := .Selected, parameters := [] }]

def outC5 : Mapping := [(.str "paths", .map pathsC5), (.str "components", .map compsMC5)]

/-- A cyclic component graph: X references Y and Y references X. -/
def compsC6 : Mapping :=
  [(.str "schemas", .map
    [(.str "X", .map [(.str "$ref", .str "#/components/schemas/Y")]),
     (.str "Y", .map [(.str "$ref", .str "#/components/schemas/X")])])]

def refsC6 : List String := ["#/components/schemas/X"]

/-- Path item listing `description` before `summary`. -/
def specC7 : Mapping :=
  [(.str "paths", .map [(.str "/a", .map
    [(.str "description", .str "d"), (.str "summary", .str "s")])])]

def pathsC7 : Mapping :=
  [(.str "/a", .map [(.str "description", .str "d"), (.str "summary", .str "s")])]

def eC7 : Endpoint :=
  { methods := [], path := "/a", description := "s", refs := [], status := .Unselected,
    parameters := [] }

def pathsC10 : Mapping :=
  [(.str "/a", .map [(.str "get", .map [(.str "$ref", .str "#/components/schemas/Ghost")])])]

/-- Document with a `$ref` to a component that does not exist. -/
def specC10 : Mapping :=
  [(.str "paths", .map pathsC10),
   (.str "components", .map [(.str "schemas", .map [(.str "Real", .map [])])])]

def selC10 : List Endpoint :=
  [{ methods := [], path := "/a", description := "", refs := [], status := .Selected, parameters := [] }]

def outC10 : Mapping := [(.str "paths", .map pathsC10), (.str "components", .map [])]

/-- Model with an empty endpoint list and the cursor at 0, as after startup
(`select_first` selects index 0 even when the table is empty). -/
def emptyModel : AppModel := { table_items := [], selected := some 0, running_state := .Running }

/-! Basic lemmas about mappings. -/

theorem mapGet_mem {m : Mapping} {k v : Value} (h : mapGet m k = some v) : (k, v) ∈ m := by
  induction m with
  | nil => simp [mapGet] at h
  | cons e rest ih =>
    obtain ⟨k', v'⟩ := e
    by_cases hk : k' = k
    · subst hk
      simp [mapGet] at h
      simp [h]
    · simp [mapGet, hk] at h
      exact List.mem_cons_of_mem _ (ih h)

theorem mapGet_none_not_mem {m : Mapping} {k v : Value} (h : mapGet m k = none) : (k, v) ∉ m := by
  induction m with
  | nil => simp
  | cons e rest ih =>
    obtain ⟨k', v'⟩ := e
    by_cases hk : k' = k
    · subst hk
      simp [mapGet] at h
    · simp [mapGet, hk] at h
      intro hmem
      rcases List.mem_cons.mp hmem with heq | hmem'
      · exact hk (by cases heq; rfl)
      · exact ih h hmem'

theorem mem_mapGet {m : Mapping} (hnd : keysNodup m) {k v : Value} (h : (k, v) ∈ m) :
    mapGet m k = some v := by
  induction m with
  | nil => simp at h
  | cons e rest ih =>
    obtain ⟨k', v'⟩ := e
    rcases List.mem_cons.mp h with heq | hmem'
    · cases heq
      simp [mapGet]
    · have hk : k' ≠ k := by
        intro hkk
        subst hkk
        have : k' ∈ rest.map Prod.fst := List.mem_map.mpr ⟨(k', v), hmem', rfl⟩
        have hnd' := List.nodup_cons.mp hnd
        exact hnd'.1 this
      have hnd' : keysNodup rest := (List.nodup_cons.mp hnd).2
      simp [mapGet, hk]
      exact ih hnd' hmem'

theorem mapInsert_of_fresh {m : Mapping} {k v : Value} (h : ∀ e ∈ m, e.1 ≠ k) :
    mapInsert m k v = m ++ [(k, v)] := by
  induction m with
  | nil => rfl
  | cons e rest ih =>
    obtain ⟨k', v'⟩ := e
    have hk : k' ≠ k := h (k', v') (List.mem_cons_self _ _)
    simp [mapInsert, hk]
    exact ih fun e he => h e (List.mem_cons_of_mem _ he)

theorem mapInsert_mem_cases {m : Mapping} {k v : Value} {x : Value × Value}
    (h : x ∈ mapInsert m k v) : x ∈ m ∨ x = (k, v) := by
  induction m with
  | nil => simp [mapInsert] at h; simp [h]
  | cons e rest ih =>
    obtain ⟨k', v'⟩ := e
    by_cases hk : k' = k
    · subst hk
      simp [mapInsert] at h
      rcases h with h | h
      · right; simp [h]
      · left; exact List.mem_cons_of_mem _ h
    · simp [mapInsert, hk] at h
      rcases h with h | h
      · left; simp [h]
      · rcases ih h with h' | h'
        · left; exact List.mem_cons_of_mem _ h'
        · right; exact h'

/-! Lemmas about reference scanning. -/

theorem refs_mem_refsOfMap {m : List (Value × Value)} {k v : Value} (h : (k, v) ∈ m) :
    ∀ r ∈ fetch_all_references v, r ∈ refsOfMap m := by
  induction m with
  | nil => simp at h
  | cons e rest ih =>
    obtain ⟨k', v'⟩ := e
    intro r hr
    rcases List.mem_cons.mp h with heq | hmem'
    · cases heq
      simp [refsOfMap]
      exact Or.inl hr
    · simp [refsOfMap]
      exact Or.inr (ih hmem' r hr)

theorem refsOfMap_sub_map {m : List (Value × Value)} :
    ∀ r ∈ refsOfMap m, r ∈ fetch_all_references (.map m) := by
  intro r hr
  simp [fetch_all_references]
  exact Or.inr hr

/-! Lemmas about the closure worklist. -/

theorem as_mapping_eq {v : Value} {m : Mapping} (h : v.as_mapping = some m) : v = .map m := by
  cases v <;> simp [Value.as_mapping] at h
  simp [h]

theorem as_str_eq {v : Value} {s : String} (h : v.as_str = some s) : v = .str s := by
  cases v <;> simp [Value.as_str] at h
  simp [h]

/-- Every pair the worklist can discover from a component body is bounded by the
parseable references occurring in `components`. -/
theorem lookupComponent_spec {comps : Mapping} {p : Pair} {cv : Value}
    (h : lookupComponent comps p = some cv) :
    ∃ sm, mapGet comps (.str p.1) = some (.map sm) ∧ mapGet sm (.str p.2) = some cv := by
  unfold lookupComponent at h
  split at h
  · rename_i sec hsec
    split at h
    · rename_i sm hsm
      exact ⟨sm, by rw [hsec, as_mapping_eq hsm], h⟩
    · simp at h
  · simp at h

theorem nestedPairs_sub (comps : Mapping) (p : Pair) :
    ∀ q ∈ nestedPairs comps p, q ∈ compRefPairs comps := by
  intro q hq
  unfold nestedPairs at hq
  cases hlook : lookupComponent comps p with
  | none => rw [hlook] at hq; simp at hq
  | some cv =>
    rw [hlook] at hq
    obtain ⟨sm, hsec, hget⟩ := lookupComponent_spec hlook
    obtain ⟨r, hr, hparse⟩ := List.mem_filterMap.mp hq
    have hcv : (Value.str p.2, cv) ∈ sm := mapGet_mem hget
    have h1 : r ∈ refsOfMap sm := refs_mem_refsOfMap hcv r hr
    have h2 : r ∈ fetch_all_references (Value.map sm) := refsOfMap_sub_map r h1
    have hsecmem : (Value.str p.1, Value.map sm) ∈ comps := mapGet_mem hsec
    have h3 : r ∈ refsOfMap comps := refs_mem_refsOfMap hsecmem r h2
    exact List.mem_filterMap.mpr ⟨r, h3, hparse⟩

theorem pushNew_visited_mono : ∀ (L : List Pair) (v s : List Pair), v ⊆ (pushNew L (v, s)).1
  | [], _, _ => fun _ hx => hx
  | p :: ps, v, s => by
    by_cases hv : p ∈ v
    · simpa [pushNew, hv] using pushNew_visited_mono ps v s
    · simp only [pushNew, if_neg hv]
      exact fun x hx => pushNew_visited_mono ps (p :: v) (p :: s) (List.mem_cons_of_mem _ hx)

theorem pushNew_sub_visited : ∀ (L : List Pair) (v s : List Pair), ∀ p ∈ L, p ∈ (pushNew L (v, s)).1
  | [], _, _ => by simp
  | p :: ps, v, s => by
    intro q hq
    by_cases hv : p ∈ v
    · simp only [pushNew, if_pos hv]
      rcases List.mem_cons.mp hq with h | h
      · subst h; exact pushNew_visited_mono ps v s hv
      · exact pushNew_sub_visited ps v s q h
    · simp only [pushNew, if_neg hv]
      rcases List.mem_cons.mp hq with h | h
      · subst h
        exact pushNew_visited_mono ps (q :: v) (q :: s) (List.mem_cons_self _ _)
      · exact pushNew_sub_visited ps (p :: v) (p :: s) q h

theorem pushNew_mem_visited : ∀ (L : List Pair) (v s : List Pair) (x : Pair),
    x ∈ (pushNew L (v, s)).1 → x ∈ v ∨ x ∈ L
  | [], v, s, x => fun h => Or.inl h
  | p :: ps, v, s, x => by
    intro h
    by_cases hv : p ∈ v
    · simp only [pushNew, if_pos hv] at h
      rcases pushNew_mem_visited ps v s x h with h' | h'
      · exact Or.inl h'
      · exact Or.inr (List.mem_cons_of_mem _ h')
    · simp only [pushNew, if_neg hv] at h
      rcases pushNew_mem_visited ps (p :: v) (p :: s) x h with h' | h'
      · rcases List.mem_cons.mp h' with h'' | h''
        · exact Or.inr (h'' ▸ List.mem_cons_self _ _)
        · exact Or.inl h''
      · exact Or.inr (List.mem_cons_of_mem _ h')

theorem pushNew_old_stack : ∀ (L : List Pair) (v s : List Pair), s ⊆ (pushNew L (v, s)).2
  | [], _, _ => fun _ hx => hx
  | p :: ps, v, s => by
    by_cases hv : p ∈ v
    · simpa [pushNew, hv] using pushNew_old_stack ps v s
    · simp only [pushNew, if_neg hv]
      exact fun x hx => pushNew_old_stack ps (p :: v) (p :: s) (List.mem_cons_of_mem _ hx)

theorem pushNew_stack_cases : ∀ (L : List Pair) (v s : List Pair) (x : Pair),
    x ∈ (pushNew L (v, s)).2 → x ∈ s ∨ x ∈ L
  | [], v, s, x => fun h => Or.inl h
  | p :: ps, v, s, x => by
    intro h
    by_cases hv : p ∈ v
    · simp only [pushNew, if_pos hv] at h
      rcases pushNew_stack_cases ps v s x h with h' | h'
      · exact Or.inl h'
      · exact Or.inr (List.mem_cons_of_mem _ h')
    · simp only [pushNew, if_neg hv] at h
      rcases pushNew_stack_cases ps (p :: v) (p :: s) x h with h' | h'
      · rcases List.mem_cons.mp h' with h'' | h''
        · exact Or.inr (h'' ▸ List.mem_cons_self _ _)
        · exact Or.inl h''
      · exact Or.inr (List.mem_cons_of_mem _ h')

theorem pushNew_diff : ∀ (L : List Pair) (v s : List Pair) (x : Pair),
    x ∈ (pushNew L (v, s)).1 → x ∉ (pushNew L (v, s)).2 → x ∈ v ∧ x ∉ s
  | [], v, s, x => fun h1 h2 => ⟨h1, h2⟩
  | p :: ps, v, s, x => by
    intro h1 h2
    by_cases hv : p ∈ v
    · simp only [pushNew, if_pos hv] at h1 h2
      exact pushNew_diff ps v s x h1 h2
    · simp only [pushNew, if_neg hv] at h1 h2
      obtain ⟨ha, hb⟩ := pushNew_diff ps (p :: v) (p :: s) x h1 h2
      have hxp : x ≠ p := fun he => hb (he ▸ List.mem_cons_self _ _)
      constructor
      · rcases List.mem_cons.mp ha with h' | h'
        · exact absurd h' hxp
        · exact h'
      · exact fun hxs => hb (List.mem_cons_of_mem _ hxs)

theorem pushNew_new_in_stack : ∀ (L : List Pair) (v s : List Pair) (x : Pair),
    x ∉ v → x ∈ (pushNew L (v, s)).1 → x ∈ (pushNew L (v, s)).2
  | [], v, s, x => fun hnv h => absurd h hnv
  | p :: ps, v, s, x => by
    intro hnv h
    by_cases hv : p ∈ v
    · simp only [pushNew, if_pos hv] at h ⊢
      exact pushNew_new_in_stack ps v s x hnv h
    · simp only [pushNew, if_neg hv] at h ⊢
      by_cases hxp : x = p
      · exact pushNew_old_stack ps (p :: v) (p :: s) (hxp ▸ List.mem_cons_self _ _)
      · exact pushNew_new_in_stack ps (p :: v) (p :: s) x
          (fun hx => (List.mem_cons.mp hx).elim hxp hnv) h

/-- Potential of a worklist state: unvisited discoverable pairs plus the stack
height. Strictly decreases at every loop step. -/
def phiCTR (comps : Mapping) (visited stack : List Pair) : Nat :=
  ((compRefPairs comps).toFinset \ visited.toFinset).card + stack.length

theorem pushNew_phi (comps : Mapping) : ∀ (L : List Pair) (v s : List Pair),
    (∀ p ∈ L, p ∈ compRefPairs comps) →
    phiCTR comps (pushNew L (v, s)).1 (pushNew L (v, s)).2 ≤ phiCTR comps v s
  | [], v, s, _ => le_refl _
  | p :: ps, v, s, hL => by
    by_cases hv : p ∈ v
    · simp only [pushNew, if_pos hv]
      exact pushNew_phi comps ps v s fun q hq => hL q (List.mem_cons_of_mem _ hq)
    · simp only [pushNew, if_neg hv]
      refine le_trans
        (pushNew_phi comps ps (p :: v) (p :: s) fun q hq => hL q (List.mem_cons_of_mem _ hq)) ?_
      unfold phiCTR
      have hS : p ∈ (compRefPairs comps).toFinset :=
        List.mem_toFinset.mpr (hL p (List.mem_cons_self _ _))
      have hvF : p ∉ v.toFinset := fun h => hv (List.mem_toFinset.mp h)
      have hmem : p ∈ (compRefPairs comps).toFinset \ v.toFinset :=
        Finset.mem_sdiff.mpr ⟨hS, hvF⟩
      have hpos : 0 < ((compRefPairs comps).toFinset \ v.toFinset).card :=
        Finset.card_pos.mpr ⟨p, hmem⟩
      rw [List.toFinset_cons, Finset.sdiff_insert, Finset.card_erase_of_mem hmem]
      simp only [List.length_cons]
      omega

theorem ctrLoop_visited_mono (comps : Mapping) : ∀ (n : Nat) (v s : List Pair),
    v ⊆ ctrLoop comps n v s
  | 0, _, _ => fun _ hx => hx
  | _ + 1, _, [] => fun _ hx => hx
  | n + 1, v, p :: s => by
    simp only [ctrLoop]
    exact fun x hx =>
      ctrLoop_visited_mono comps n _ _ (pushNew_visited_mono (nestedPairs comps p) v s hx)

theorem ctrLoop_sound (comps : Mapping) : ∀ (n : Nat) (v s : List Pair) (x : Pair),
    x ∈ ctrLoop comps n v s → x ∈ v ∨ ∃ p, x ∈ nestedPairs comps p
  | 0, _, _, _ => fun h => Or.inl h
  | _ + 1, _, [], _ => fun h => Or.inl h
  | n + 1, v, p :: s, x => by
    intro h
    simp only [ctrLoop] at h
    rcases ctrLoop_sound comps n _ _ x h with h' | h'
    · rcases pushNew_mem_visited _ _ _ _ h' with h'' | h''
      · exact Or.inl h''
      · exact Or.inr ⟨p, h''⟩
    · exact Or.inr h'

theorem ctrLoop_fuel_succ (comps : Mapping) : ∀ (n : Nat) (v s : List Pair),
    phiCTR comps v s ≤ n → ctrLoop comps n v s = ctrLoop comps (n + 1) v s
  | 0, v, s => by
    intro h
    have hs : s = [] := by
      have : s.length = 0 := by
        have := Nat.le_zero.mp h
        unfold phiCTR at this
        omega
      exact List.length_eq_zero.mp this
    subst hs
    rfl
  | n + 1, v, [] => fun _ => rfl
  | n + 1, v, p :: s => by
    intro h
    have hstep : phiCTR comps (pushNew (nestedPairs comps p) (v, s)).1
        (pushNew (nestedPairs comps p) (v, s)).2 ≤ n := by
      have h1 := pushNew_phi comps (nestedPairs comps p) v s (nestedPairs_sub comps p)
      have h2 : phiCTR comps v (p :: s) = phiCTR comps v s + 1 := by
        unfold phiCTR
        simp only [List.length_cons]
        omega
      omega
    simp only [ctrLoop]
    exact ctrLoop_fuel_succ comps n _ _ hstep

theorem ctrLoop_fuel_add (comps : Mapping) (n : Nat) (v s : List Pair)
    (h : phiCTR comps v s ≤ n) : ∀ k, ctrLoop comps n v s = ctrLoop comps (n + k) v s := by
  intro k
  induction k with
  | zero => rfl
  | succ k ih =>
    rw [ih, ← Nat.add_assoc]
    exact ctrLoop_fuel_succ comps (n + k) v s (le_trans h (Nat.le_add_right _ _))

/-- Worklist invariant: the stack is contained in the visited set and every
visited pair no longer on the stack has all of its nested pairs visited. -/
def ctrInv (comps : Mapping) (v s : List Pair) : Prop :=
  s ⊆ v ∧ ∀ p ∈ v, p ∉ s → ∀ q ∈ nestedPairs comps p, q ∈ v

theorem ctrLoop_closed (comps : Mapping) : ∀ (n : Nat) (v s : List Pair),
    ctrInv comps v s → phiCTR comps v s ≤ n →
    ∀ p ∈ ctrLoop comps n v s, ∀ q ∈ nestedPairs comps p, q ∈ ctrLoop comps n v s
  | 0, v, s => by
    intro hinv h
    have hs : s = [] := by
      have : s.length = 0 := by unfold phiCTR at h; omega
      exact List.length_eq_zero.mp this
    subst hs
    exact fun p hp q hq => hinv.2 p hp (by simp) q hq
  | n + 1, v, [] => fun hinv _ p hp q hq => hinv.2 p hp (by simp) q hq
  | n + 1, v, p :: s => by
    intro hinv h
    simp only [ctrLoop]
    set L := nestedPairs comps p with hL
    have hinv' : ctrInv comps (pushNew L (v, s)).1 (pushNew L (v, s)).2 := by
      constructor
      · intro x hx
        rcases pushNew_stack_cases L v s x hx with h' | h'
        · exact pushNew_visited_mono L v s (hinv.1 (List.mem_cons_of_mem _ h'))
        · exact pushNew_sub_visited L v s x h'
      · intro x hx hnx q hq
        by_cases hxv : x ∈ v
        · obtain ⟨_, hxs⟩ := pushNew_diff L v s x hx hnx
          by_cases hxp : x = p
          · subst hxp
            exact pushNew_sub_visited L v s q hq
          · have : x ∉ p :: s := fun hmem => (List.mem_cons.mp hmem).elim hxp hxs
            exact pushNew_visited_mono L v s (hinv.2 x hxv this q hq)
        · exact absurd (pushNew_new_in_stack L v s x hxv hx) hnx
    have hphi : phiCTR comps (pushNew L (v, s)).1 (pushNew L (v, s)).2 ≤ n := by
      have h1 := pushNew_phi comps L v s (hL ▸ nestedPairs_sub comps p)
      have h2 : phiCTR comps v (p :: s) = phiCTR comps v s + 1 := by
        unfold phiCTR
        simp only [List.length_cons]
        omega
      omega
    exact ctrLoop_closed comps n _ _ hinv' hphi

theorem seeded_stack_sub_visited (irefs : List String) :
    (ctrSeeded irefs).2 ⊆ (ctrSeeded irefs).1 := by
  intro x hx
  rcases pushNew_stack_cases (seedPairs irefs) [] [] x hx with h | h
  · simp at h
  · exact pushNew_sub_visited _ _ _ x h

theorem seeded_visited_iff (irefs : List String) :
    ∀ x, x ∈ (ctrSeeded irefs).1 ↔ x ∈ seedPairs irefs := by
  intro x
  constructor
  · intro h
    rcases pushNew_mem_visited (seedPairs irefs) [] [] x h with h' | h'
    · simp at h'
    · exact h'
  · exact fun h => pushNew_sub_visited _ _ _ x h

theorem seeded_inv (comps : Mapping) (irefs : List String) :
    ctrInv comps (ctrSeeded irefs).1 (ctrSeeded irefs).2 := by
  constructor
  · exact seeded_stack_sub_visited irefs
  · intro x hx hnx
    exact absurd (pushNew_new_in_stack (seedPairs irefs) [] [] x (by simp) hx) hnx

theorem seeded_phi_le (comps : Mapping) (irefs : List String) :
    phiCTR comps (ctrSeeded irefs).1 (ctrSeeded irefs).2 ≤ ctrFuel comps irefs := by
  unfold phiCTR ctrFuel
  have h1 : ((compRefPairs comps).toFinset \ (ctrSeeded irefs).1.toFinset).card ≤
      (compRefPairs comps).toFinset.card := Finset.card_le_card (Finset.sdiff_subset)
  have h2 : (compRefPairs comps).toFinset.card ≤ (compRefPairs comps).length :=
    List.toFinset_card_le _
  omega

/-- Every parseable seed reference lands in the closure. -/
theorem collect_seed (comps : Mapping) (irefs : List String) :
    ∀ q ∈ seedPairs irefs, q ∈ collect_transitive_references comps irefs := by
  intro q hq
  unfold collect_transitive_references
  exact ctrLoop_visited_mono comps _ _ _ ((seeded_visited_iff irefs q).mpr hq)

/-- The closure is closed under nested component references. -/
theorem collect_closed (comps : Mapping) (irefs : List String) :
    ∀ p ∈ collect_transitive_references comps irefs,
      ∀ q ∈ nestedPairs comps p, q ∈ collect_transitive_references comps irefs := by
  unfold collect_transitive_references
  exact ctrLoop_closed comps _ _ _ (seeded_inv comps irefs) (seeded_phi_le comps irefs)

/-- Every closure member is a parseable seed or a parseable reference occurring
inside some component definition. -/
theorem collect_sound (comps : Mapping) (irefs : List String) :
    ∀ q ∈ collect_transitive_references comps irefs,
      q ∈ seedPairs irefs ∨ q ∈ compRefPairs comps := by
  intro q hq
  rcases ctrLoop_sound comps _ _ _ q hq with h | ⟨p, h⟩
  · exact Or.inl ((seeded_visited_iff irefs q).mp h)
  · exact Or.inr (nestedPairs_sub comps p q h)

/-- The fuel built into `collect_transitive_references` suffices: adding fuel
never changes the result. -/
theorem collect_fuel_stable (comps : Mapping) (irefs : List String) (extra : Nat) :
    ctrLoop comps (ctrFuel comps irefs + extra) (ctrSeeded irefs).1 (ctrSeeded irefs).2 =
      collect_transitive_references comps irefs := by
  unfold collect_transitive_references
  exact (ctrLoop_fuel_add comps _ _ _ (seeded_phi_le comps irefs) extra).symm

/-! Characterisation of the output-assembly folds. -/

theorem filterSectionAux_subset (c : String) (cl : List Pair) (sch : List String) :
    ∀ (sm fs : Mapping) (x : Value × Value),
      x ∈ filterSectionAux c cl sch sm fs → x ∈ fs ∨ x ∈ sm
  | [], fs, x => fun h => Or.inl h
  | kv :: rest, fs, x => by
    intro h
    simp only [filterSectionAux] at h
    rcases filterSectionAux_subset c cl sch rest _ x h with h' | h'
    · by_cases hkeep : keepProp c cl sch kv
      · rw [if_pos hkeep] at h'
        rcases mapInsert_mem_cases h' with h'' | h''
        · exact Or.inl h''
        · right
          have : x = kv := by rw [h'']
          exact this ▸ List.mem_cons_self _ _
      · rw [if_neg hkeep] at h'
        exact Or.inl h'
    · exact Or.inr (List.mem_cons_of_mem _ h')

theorem filterSectionAux_eq (c : String) (cl : List Pair) (sch : List String) :
    ∀ (sm fs : Mapping), keysNodup sm → (∀ kv ∈ sm, ∀ e ∈ fs, e.1 ≠ kv.1) →
      filterSectionAux c cl sch sm fs =
        fs ++ sm.filter (fun kv => decide (keepProp c cl sch kv))
  | [], fs, _, _ => by simp [filterSectionAux]
  | kv :: rest, fs, hnd, hfresh => by
    have hnd' : keysNodup rest := (List.nodup_cons.mp hnd).2
    have hheadfresh : ∀ e ∈ fs, e.1 ≠ kv.1 := hfresh kv (List.mem_cons_self _ _)
    by_cases hkeep : keepProp c cl sch kv
    · have hins : mapInsert fs kv.1 kv.2 = fs ++ [(kv.1, kv.2)] :=
        mapInsert_of_fresh hheadfresh
      have hfresh' : ∀ kv' ∈ rest, ∀ e ∈ fs ++ [(kv.1, kv.2)], e.1 ≠ kv'.1 := by
        intro kv' hkv' e he
        rcases List.mem_append.mp he with h' | h'
        · exact hfresh kv' (List.mem_cons_of_mem _ hkv') e h'
        · have : e = (kv.1, kv.2) := by simpa using h'
          subst this
          intro hke
          have h1 := (List.nodup_cons.mp hnd).1
          exact h1 (hke ▸ List.mem_map.mpr ⟨kv', hkv', rfl⟩)
      simp only [filterSectionAux, if_pos hkeep, hins]
      rw [filterSectionAux_eq c cl sch rest _ hnd' hfresh']
      simp [hkeep, List.append_assoc]
    · have hfresh' : ∀ kv' ∈ rest, ∀ e ∈ fs, e.1 ≠ kv'.1 :=
        fun kv' hkv' => hfresh kv' (List.mem_cons_of_mem _ hkv')
      simp only [filterSectionAux, if_neg hkeep]
      rw [filterSectionAux_eq c cl sch rest _ hnd' hfresh']
      simp [hkeep]

theorem componentEntryOut_key {cl : List Pair} {sch : List String} {kv w : Value × Value}
    (h : componentEntryOut cl sch kv = some w) : w.1 = kv.1 := by
  simp only [componentEntryOut] at h
  split at h
  · simp at h
  · cases h
    rfl

theorem filterComponentsAux_eq (cl : List Pair) (sch : List String) :
    ∀ (cm co : Mapping), keysNodup cm → (∀ kv ∈ cm, ∀ e ∈ co, e.1 ≠ kv.1) →
      filterComponentsAux cl sch cm co = co ++ cm.filterMap (componentEntryOut cl sch)
  | [], co, _, _ => by simp [filterComponentsAux]
  | kv :: rest, co, hnd, hfresh => by
    have hnd' : keysNodup rest := (List.nodup_cons.mp hnd).2
    cases hout : componentEntryOut cl sch kv with
    | none =>
      have hfresh' : ∀ kv' ∈ rest, ∀ e ∈ co, e.1 ≠ kv'.1 :=
        fun kv' hkv' => hfresh kv' (List.mem_cons_of_mem _ hkv')
      simp only [filterComponentsAux, hout]
      rw [filterComponentsAux_eq cl sch rest _ hnd' hfresh']
      simp [List.filterMap_cons, hout]
    | some w =>
      have hkey : w.1 = kv.1 := componentEntryOut_key hout
      have hheadfresh : ∀ e ∈ co, e.1 ≠ w.1 := fun e he => hkey ▸ hfresh kv (List.mem_cons_self _ _) e he
      have hins : mapInsert co w.1 w.2 = co ++ [(w.1, w.2)] := mapInsert_of_fresh hheadfresh
      have hfresh' : ∀ kv' ∈ rest, ∀ e ∈ co ++ [(w.1, w.2)], e.1 ≠ kv'.1 := by
        intro kv' hkv' e he
        rcases List.mem_append.mp he with h' | h'
        · exact hfresh kv' (List.mem_cons_of_mem _ hkv') e h'
        · have : e = (w.1, w.2) := by simpa using h'
          subst this
          simp only [hkey]
          intro hke
          have h1 := (List.nodup_cons.mp hnd).1
          exact h1 (hke ▸ List.mem_map.mpr ⟨kv', hkv', rfl⟩)
      simp only [filterComponentsAux, hout]
      rw [hins, filterComponentsAux_eq cl sch rest _ hnd' hfresh']
      simp [List.filterMap_cons, hout, List.append_assoc]

theorem buildOutputAux_eq (spec : Mapping) (cl : List Pair) (sch : List String) (paths : Mapping) :
    ∀ (l out : Mapping),
      (∀ kv ∈ l, mapGet spec kv.1 = some kv.2) →
      (l.map Prod.fst).Nodup →
      (∀ kv ∈ l, ∀ e ∈ out, e.1 ≠ kv.1) →
      buildOutputAux spec cl sch paths (l.map Prod.fst) out =
        out ++ l.map (fun kv => (kv.1, transformVal cl sch paths kv.1 kv.2))
  | [], out, _, _, _ => by simp [buildOutputAux]
  | kv :: rest, out, hget, hnd, hfresh => by
    have hnd' : (rest.map Prod.fst).Nodup := (List.nodup_cons.mp hnd).2
    have hkvget : mapGet spec kv.1 = some kv.2 := hget kv (List.mem_cons_self _ _)
    have hheadfresh : ∀ e ∈ out, e.1 ≠ kv.1 := hfresh kv (List.mem_cons_self _ _)
    have hins : mapInsert out kv.1 (transformVal cl sch paths kv.1 kv.2) =
        out ++ [(kv.1, transformVal cl sch paths kv.1 kv.2)] := mapInsert_of_fresh hheadfresh
    have hfresh' : ∀ kv' ∈ rest, ∀ e ∈ out ++ [(kv.1, transformVal cl sch paths kv.1 kv.2)],
        e.1 ≠ kv'.1 := by
      intro kv' hkv' e he
      rcases List.mem_append.mp he with h' | h'
      · exact hfresh kv' (List.mem_cons_of_mem _ hkv') e h'
      · have : e = (kv.1, transformVal cl sch paths kv.1 kv.2) := by simpa using h'
        subst this
        intro hke
        have h1 := (List.nodup_cons.mp hnd).1
        exact h1 (hke ▸ List.mem_map.mpr ⟨kv', hkv', rfl⟩)
    simp only [List.map_cons, buildOutputAux, hkvget, hins]
    rw [buildOutputAux_eq spec cl sch paths rest _
      (fun kv' h => hget kv' (List.mem_cons_of_mem _ h)) hnd' hfresh']
    simp [List.append_assoc]

/-- The whole assembled output, under the invariant that document keys are
unique: the output is the input with `paths` and `components` transformed in
place. -/
theorem process_eq (sel : List Endpoint) {spec pm : Mapping}
    (hp : mapGet spec (.str "paths") = some (.map pm)) (hk : keysNodup spec) :
    process_spec_for_output spec sel =
      some (spec.map fun kv =>
        (kv.1, transformVal (closureOf spec pm sel) (securitySchemesOf spec pm sel)
          (selectedPathsMap pm sel) kv.1 kv.2)) := by
  have h2 : (mapGet spec (.str "paths")).bind Value.as_mapping = some pm := by
    rw [hp]
    rfl
  unfold process_spec_for_output
  rw [h2]
  exact congrArg some (by
    unfold mapKeys
    exact buildOutputAux_eq spec _ _ _ spec [] (fun kv h => mem_mapGet hk h) hk (by simp))

theorem mapGet_map_transform {f : Value → Value → Value} :
    ∀ {l : Mapping}, keysNodup l → ∀ {k v : Value}, (k, v) ∈ l →
      mapGet (l.map fun kv => (kv.1, f kv.1 kv.2)) k = some (f k v) := by
  intro l
  induction l with
  | nil => intro _ k v h; simp at h
  | cons e rest ih =>
    intro hnd k v h
    obtain ⟨k', v'⟩ := e
    rcases List.mem_cons.mp h with heq | hmem'
    · cases heq
      simp [mapGet]
    · have hk : k' ≠ k := by
        intro hkk
        subst hkk
        exact (List.nodup_cons.mp hnd).1 (List.mem_map.mpr ⟨(k', v), hmem', rfl⟩)
      simp only [List.map_cons, mapGet, if_neg hk]
      exact ih (List.nodup_cons.mp hnd).2 hmem'

theorem mapKeys_map_transform {f : Value → Value → Value} (l : Mapping) :
    (l.map fun kv => (kv.1, f kv.1 kv.2)).map Prod.fst = l.map Prod.fst := by
  induction l with
  | nil => rfl
  | cons e rest ih => simp [ih]

theorem mapGet_filterMap {f : Value × Value → Option (Value × Value)}
    (hkey : ∀ kv w, f kv = some w → w.1 = kv.1) :
    ∀ {cm : Mapping}, keysNodup cm → ∀ {k v : Value}, (k, v) ∈ cm →
      ∀ {w : Value × Value}, f (k, v) = some w → mapGet (cm.filterMap f) k = some w.2 := by
  intro cm
  induction cm with
  | nil => intro _ k v h; simp at h
  | cons e rest ih =>
    intro hnd k v h w hf
    obtain ⟨k', v'⟩ := e
    rcases List.mem_cons.mp h with heq | hmem'
    · cases heq
      rw [List.filterMap_cons, hf]
      have : w.1 = k := hkey _ _ hf
      simp [mapGet, this]
    · have hk : k' ≠ k := by
        intro hkk
        subst hkk
        exact (List.nodup_cons.mp hnd).1 (List.mem_map.mpr ⟨(k', v), hmem', rfl⟩)
      rw [List.filterMap_cons]
      cases hf' : f (k', v') with
      | none => exact ih (List.nodup_cons.mp hnd).2 hmem' hf
      | some w' =>
        have : w'.1 = k' := hkey _ _ hf'
        simp only [mapGet, this, if_neg hk]
        exact ih (List.nodup_cons.mp hnd).2 hmem' hf

/-! Lemmas about endpoint extraction. -/

theorem forall₂_mem_right {α β : Type} {R : α → β → Prop} :
    ∀ {l : List α} {es : List β}, List.Forall₂ R l es → ∀ e ∈ es, ∃ a ∈ l, R a e := by
  intro l es h
  induction h with
  | nil => simp
  | cons hR hrest ih =>
    intro e he
    rcases List.mem_cons.mp he with heq | hmem
    · exact ⟨_, List.mem_cons_self _ _, heq ▸ hR⟩
    · obtain ⟨a, ha, hae⟩ := ih e hmem
      exact ⟨a, List.mem_cons_of_mem _ ha, hae⟩

theorem forall₂_mem_left {α β : Type} {R : α → β → Prop} :
    ∀ {l : List α} {es : List β}, List.Forall₂ R l es → ∀ a ∈ l, ∃ e ∈ es, R a e := by
  intro l es h
  induction h with
  | nil => simp
  | cons hR hrest ih =>
    intro a ha
    rcases List.mem_cons.mp ha with heq | hmem
    · exact ⟨_, List.mem_cons_self _ _, heq ▸ hR⟩
    · obtain ⟨e, he, hae⟩ := ih a hmem
      exact ⟨e, List.mem_cons_of_mem _ he, hae⟩

theorem processPaths_spec : ∀ {l : List (Value × Value)} {es : List Endpoint},
    processPaths l = some es → List.Forall₂ (fun kv e => processPathEntry kv.1 kv.2 = some e) l es
  | [], es, h => by
    cases h
    exact List.Forall₂.nil
  | (p, ops) :: rest, es, h => by
    simp only [processPaths, Option.bind_eq_bind] at h
    cases he : processPathEntry p ops with
    | none => rw [he] at h; simp at h
    | some e =>
      rw [he] at h
      cases hrest : processPaths rest with
      | none => rw [hrest] at h; simp at h
      | some es' =>
        rw [hrest] at h
        have h' : some (e :: es') = some es := h
        cases h'
        exact List.Forall₂.cons he (processPaths_spec hrest)

theorem fetch_eq {spec : Mapping} {pm : Mapping}
    (hp : mapGet spec (.str "paths") = some (.map pm)) :
    fetch_endpoints_from_spec spec =
      (processPaths pm).bind fun items =>
        some (List.insertionSort pathLe items) := by
  unfold fetch_endpoints_from_spec
  rw [hp]
  rfl

/-- The accumulator update of the verb-key branch of the path-item loop. -/
def opAccStep (acc : PathAcc) (ks : String) (v : Value) : PathAcc :=
  { description := acc.description
    params :=
      match v.as_mapping with
      | some op_map =>
        match mapGet op_map (.str "parameters") with
        | some pv =>
          match pv.as_sequence with
          | some pa => acc.params ++ extract_parameters pa
          | none => acc.params
        | none => acc.params
      | none => acc.params
    methods := acc.methods ++
      [{ method := ks
         description :=
           if (((v.as_mapping).bind fun m => mapGet m (Value.str "summary")).bind Value.as_str).getD "" ≠ "" then
             (((v.as_mapping).bind fun m => mapGet m (Value.str "summary")).bind Value.as_str).getD ""
           else
             (((v.as_mapping).bind fun m => mapGet m (Value.str "description")).bind Value.as_str).getD "No description" }]
    refs := acc.refs ++ fetch_all_references v }

theorem processOps_cons_some {k : Value} {ks : String} (v : Value) (rest : List (Value × Value))
    (acc : PathAcc) (hks : k.as_str = some ks) :
    processOps ((k, v) :: rest) acc =
      if ks = "summary" then processOps rest { acc with description := (v.as_str).getD "" }
      else if ks = "description" ∧ acc.description = "" then
        processOps rest { acc with description := (v.as_str).getD "" }
      else processOps rest (opAccStep acc ks v) := by
  obtain rfl : k = .str ks := as_str_eq hks
  rfl

theorem processOps_cons_none {k : Value} (v : Value) (rest : List (Value × Value))
    (acc : PathAcc) (hks : k.as_str = none) : processOps ((k, v) :: rest) acc = none := by
  unfold processOps
  rw [hks]

theorem verbKeysAcc_cons_some {k : Value} {ks : String} (v : Value) (rest : List (Value × Value))
    (desc : String) (hks : k.as_str = some ks) :
    verbKeysAcc desc ((k, v) :: rest) =
      if ks = "summary" then verbKeysAcc ((v.as_str).getD "") rest
      else if ks = "description" ∧ desc = "" then verbKeysAcc ((v.as_str).getD "") rest
      else (verbKeysAcc desc rest).map (ks :: ·) := by
  obtain rfl : k = .str ks := as_str_eq hks
  rfl

theorem opAccStep_description (acc : PathAcc) (ks : String) (v : Value) :
    (opAccStep acc ks v).description = acc.description := rfl

theorem opAccStep_methods_map (acc : PathAcc) (ks : String) (v : Value) :
    (opAccStep acc ks v).methods.map (·.method) = acc.methods.map (·.method) ++ [ks] := by
  simp [opAccStep]

theorem processOps_methods : ∀ (l : List (Value × Value)) (acc acc' : PathAcc),
    processOps l acc = some acc' →
    ∃ vk, verbKeysAcc acc.description l = some vk ∧
      acc'.methods.map (·.method) = acc.methods.map (·.method) ++ vk
  | [], acc, acc', h => by
    cases h
    exact ⟨[], rfl, by simp⟩
  | (k, v) :: rest, acc, acc', h => by
    cases hks : k.as_str with
    | none => rw [processOps_cons_none v rest acc hks] at h; simp at h
    | some ks =>
      rw [processOps_cons_some v rest acc hks] at h
      rw [verbKeysAcc_cons_some v rest acc.description hks]
      by_cases h1 : ks = "summary"
      · rw [if_pos h1] at h ⊢
        exact processOps_methods rest _ acc' h
      · rw [if_neg h1] at h ⊢
        by_cases h2 : ks = "description" ∧ acc.description = ""
        · rw [if_pos h2] at h ⊢
          exact processOps_methods rest _ acc' h
        · rw [if_neg h2] at h ⊢
          obtain ⟨vk, hvk, hm⟩ := processOps_methods rest _ acc' h
          rw [opAccStep_description] at hvk
          rw [opAccStep_methods_map] at hm
          refine ⟨ks :: vk, by rw [hvk]; rfl, ?_⟩
          rw [hm]
          simp

theorem processOps_desc_preserved : ∀ (l : List (Value × Value)) (acc acc' : PathAcc),
    acc.description ≠ "" → (Value.str "summary") ∉ l.map Prod.fst →
    processOps l acc = some acc' → acc'.description = acc.description
  | [], acc, acc', _, _, h => by cases h; rfl
  | (k, v) :: rest, acc, acc', hne, hnosum, h => by
    have hrest : (Value.str "summary") ∉ rest.map Prod.fst := by
      intro hmem
      exact hnosum (List.mem_cons_of_mem _ hmem)
    cases hks : k.as_str with
    | none => rw [processOps_cons_none v rest acc hks] at h; simp at h
    | some ks =>
      rw [processOps_cons_some v rest acc hks] at h
      by_cases h1 : ks = "summary"
      · exfalso
        apply hnosum
        have hk : k = Value.str "summary" := by rw [as_str_eq hks, h1]
        simp [hk]
      · rw [if_neg h1] at h
        by_cases h2 : ks = "description" ∧ acc.description = ""
        · exact absurd h2.2 hne
        · rw [if_neg h2] at h
          have hd := processOps_desc_preserved rest _ acc'
            (by rw [opAccStep_description]; exact hne) hrest h
          rw [hd, opAccStep_description]

theorem processOps_summary : ∀ (l : List (Value × Value)) (acc acc' : PathAcc)
    (sv : Value) (s : String), keysNodup l → (Value.str "summary", sv) ∈ l →
    sv.as_str = some s → s ≠ "" → processOps l acc = some acc' → acc'.description = s
  | [], _, _, _, _, _, hmem, _, _, _ => by simp at hmem
  | (k, v) :: rest, acc, acc', sv, s, hnd, hmem, hsv, hs, h => by
    rcases List.mem_cons.mp hmem with heq | hmem'
    · have hk : k = Value.str "summary" := by cases heq; rfl
      have hv : v = sv := by cases heq; rfl
      have hks : k.as_str = some "summary" := by rw [hk]; rfl
      rw [processOps_cons_some v rest acc hks, if_pos rfl] at h
      have hnosum : (Value.str "summary") ∉ rest.map Prod.fst := by
        have hnd1 := (List.nodup_cons.mp hnd).1
        rw [hk] at hnd1
        exact hnd1
      have hdesc : ((v.as_str).getD "" : String) = s := by rw [hv, hsv]; rfl
      have hres := processOps_desc_preserved rest _ acc'
        (show ({ acc with description := (v.as_str).getD "" } : PathAcc).description ≠ "" by
          show ((v.as_str).getD "" : String) ≠ ""
          rw [hdesc]
          exact hs) hnosum h
      rw [hres]
      exact hdesc
    · have hnd' : keysNodup rest := (List.nodup_cons.mp hnd).2
      cases hks : k.as_str with
      | none => rw [processOps_cons_none v rest acc hks] at h; simp at h
      | some ks =>
        rw [processOps_cons_some v rest acc hks] at h
        by_cases h1 : ks = "summary"
        · rw [if_pos h1] at h
          exact processOps_summary rest _ acc' sv s hnd' hmem' hsv hs h
        · rw [if_neg h1] at h
          by_cases h2 : ks = "description" ∧ acc.description = ""
          · rw [if_pos h2] at h
            exact processOps_summary rest _ acc' sv s hnd' hmem' hsv hs h
          · rw [if_neg h2] at h
            exact processOps_summary rest _ acc' sv s hnd' hmem' hsv hs h

/-! Helper lemmas tying the assembled output to its components. -/

theorem componentsOf_eq {spec compsM : Mapping}
    (hc : mapGet spec (.str "components") = some (.map compsM)) :
    componentsOf spec = compsM := by
  unfold componentsOf
  rw [hc]
  rfl

theorem closureOf_eq (pm : Mapping) (sel : List Endpoint) {spec compsM : Mapping}
    (hc : mapGet spec (.str "components") = some (.map compsM)) :
    closureOf spec pm sel = collect_transitive_references compsM (initialRefs pm sel) := by
  unfold closureOf
  rw [componentsOf_eq hc]

theorem lookupComponent_of_get {comps sm : Mapping} {c n : String}
    (h : mapGet comps (.str c) = some (.map sm)) :
    lookupComponent comps (c, n) = mapGet sm (.str n) := by
  unfold lookupComponent
  rw [h]
  rfl

theorem transformVal_components (cl : List Pair) (sch : List String) (paths : Mapping) (v : Value) :
    transformVal cl sch paths (.str "components") v = .map (filterComponents cl sch v) := by
  unfold transformVal
  rw [if_neg (by decide),
    if_pos (show (Value.str "components").as_str = some "components" from rfl)]

theorem filterComponents_eq {cm : Mapping} (cl : List Pair) (sch : List String)
    (hnd : keysNodup cm) :
    filterComponents cl sch (.map cm) = cm.filterMap (componentEntryOut cl sch) := by
  show filterComponentsAux cl sch cm [] = cm.filterMap (componentEntryOut cl sch)
  exact filterComponentsAux_eq cl sch cm [] hnd (by simp)

theorem sectionOut_eq {sm : Mapping} (c : String) (cl : List Pair) (sch : List String)
    (hnd : keysNodup sm) :
    sectionOut c cl sch (.map sm) = sm.filter (fun kv => decide (keepProp c cl sch kv)) := by
  show filterSectionAux c cl sch sm [] = sm.filter (fun kv => decide (keepProp c cl sch kv))
  exact filterSectionAux_eq c cl sch sm [] hnd (by simp)

theorem componentEntryOut_str (cl : List Pair) (sch : List String) (c : String) (cv : Value) :
    componentEntryOut cl sch (.str c, cv) =
      if sectionOut c cl sch cv = [] then none
      else some (.str c, .map (sectionOut c cl sch cv)) := rfl

/-- The assembled output's components section, as a filterMap of the input's,
given distinct keys. -/
theorem out_components {spec compsM : Mapping} {pm : Mapping} {sel : List Endpoint}
    (hk : keysNodup spec)
    (hc : mapGet spec (.str "components") = some (.map compsM)) :
    mapGet (spec.map fun kv =>
        (kv.1, transformVal (closureOf spec pm sel) (securitySchemesOf spec pm sel)
          (selectedPathsMap pm sel) kv.1 kv.2)) (.str "components") =
      some (.map (filterComponents (closureOf spec pm sel) (securitySchemesOf spec pm sel)
        (.map compsM))) := by
  have h := mapGet_map_transform (f := transformVal (closureOf spec pm sel)
    (securitySchemesOf spec pm sel) (selectedPathsMap pm sel)) hk (mapGet_mem hc)
  rw [h, transformVal_components]

/-! Claim theorems. -/

/-- C6: the transitive reference-closure computation terminates for every
document and every initial reference list, including cyclic component graphs:
the built-in fuel suffices (extra fuel never changes the result, so the
worklist always drains), the visited set only grows, and it is bounded by the
parseable component references (seeds plus references occurring in component
definitions); cycles are handled solely by the visited-set check and never
rejected with an error. -/
theorem C6_closure_terminates (components : Mapping) (initial_refs : List String) (extra : Nat) :
    ctrLoop components (ctrFuel components initial_refs + extra)
        (ctrSeeded initial_refs).1 (ctrSeeded initial_refs).2 =
      collect_transitive_references components initial_refs ∧
    (∀ q ∈ (ctrSeeded initial_refs).1, q ∈ collect_transitive_references components initial_refs) ∧
    (∀ q ∈ collect_transitive_references components initial_refs,
      q ∈ seedPairs initial_refs ∨ q ∈ compRefPairs components) :=
  ⟨collect_fuel_stable components initial_refs extra,
   fun _ hq => ctrLoop_visited_mono components _ _ _ hq,
   collect_sound components initial_refs⟩

/-- C6 witness: on the cyclic graph X ↔ Y the loop with five units of extra
fuel returns the same closure, which contains Y, and Y is bounded by the
parseable component references. -/
theorem C6_closure_terminates_witness :
    ctrLoop compsC6 (ctrFuel compsC6 refsC6 + 5) (ctrSeeded refsC6).1 (ctrSeeded refsC6).2 =
      collect_transitive_references compsC6 refsC6 ∧
    ("schemas", "Y") ∈ collect_transitive_references compsC6 refsC6 ∧
    (("schemas", "Y") ∈ seedPairs refsC6 ∨ ("schemas", "Y") ∈ compRefPairs compsC6) :=
  ⟨(C6_closure_terminates compsC6 refsC6 5).1,
   by decide,
   (C6_closure_terminates compsC6 refsC6 5).2.2 ("schemas", "Y") (by decide)⟩

/-- C2: for every document (with the IndexMap invariant of pairwise-distinct
top-level keys) and every selection, the assembled output has exactly the
input's top-level keys in the input's original order, and every top-level key
other than "paths" and "components" maps to a value identical to the
input's. -/
theorem C2_top_level_frame (spec pm : Mapping) (sel : List Endpoint) (out : Mapping)
    (hk : keysNodup spec)
    (hp : mapGet spec (.str "paths") = some (.map pm))
    (hout : process_spec_for_output spec sel = some out) :
    out.map Prod.fst = spec.map Prod.fst ∧
    ∀ k v, (k, v) ∈ spec → k.as_str ≠ some "paths" → k.as_str ≠ some "components" →
      mapGet out k = some v := by
  have heq := process_eq sel hp hk
  rw [hout] at heq
  obtain rfl := Option.some.inj heq
  constructor
  · exact mapKeys_map_transform spec
  · intro k v hkv hnp hnc
    rw [mapGet_map_transform hk hkv]
    unfold transformVal
    rw [if_neg hnp, if_neg hnc]

/-- C2 witness: on a four-key document with an empty selection, assembly
succeeds, preserves the key list, and copies the "info" value verbatim. -/
theorem C2_top_level_frame_witness :
    process_spec_for_output specC2 [] = some outC2 ∧
    outC2.map Prod.fst = specC2.map Prod.fst ∧
    mapGet outC2 (.str "info") = some (.map [(.str "title", .str "t")]) :=
  have hout : process_spec_for_output specC2 [] = some outC2 := by decide
  ⟨hout,
   (C2_top_level_frame specC2 pathsC2 [] outC2 (by decide) (by decide) hout).1,
   (C2_top_level_frame specC2 pathsC2 [] outC2 (by decide) (by decide) hout).2
     (.str "info") (.map [(.str "title", .str "t")]) (by decide) (by decide) (by decide)⟩

/-- C8: the claim says a write failure during write-and-quit is reported via
the update handler and the done flag is still set. In the code,
`write_spec_to_file` calls `.unwrap()` on the `fs::write` result, so a failing
write panics inside the callee and the `unwrap_or_else` handler at the call
site (which would report and set the done flag) is dead code: the step ends in
a panic, not in a reported `Done` state. A successful write does set `Done`. -/
theorem C8_write_failure_panics :
    update (Except.error "disk full") emptyModel .WriteAndQuit = .fatal "disk full" ∧
    update (Except.ok ()) emptyModel .WriteAndQuit =
      .ok { emptyModel with running_state := .Done } [] :=
  ⟨rfl, rfl⟩

/-- C9 counterexample: on the empty endpoint list with the cursor at 0 (the
startup state), toggling panics on the out-of-bounds vector index instead of
being a no-op, and select-next moves the cursor (the `len - 1` guard
underflows) instead of leaving the model unchanged. -/
theorem C9_counterexample :
    update (Except.ok ()) emptyModel .ToggleSelectItemAndSelectNext =
      .fatal "index out of bounds" ∧
    update (Except.ok ()) emptyModel .SelectNext =
      .ok { emptyModel with selected := some 1 } [] := by
  constructor
  · rfl
  · decide

/-- C9 (amended): select_previous is a no-op on an empty list only because the
cursor guard `current > 0` fails when the cursor is 0 or unset; select_next on
an empty list always advances the stored cursor, because the `len - 1` bound
wraps around to `2^64 - 1` in a release build; and toggling with the cursor
index out of range (in particular, any toggle on an empty list) panics on the
vector index rather than being absorbed as a silent no-op. -/
theorem C9_empty_list_behaviour :
    (∀ (w : Except String Unit) (m : AppModel), m.table_items = [] →
      (m.selected = some 0 ∨ m.selected = none) →
      update w m .SelectPrevious = .ok m []) ∧
    (∀ (w : Except String Unit) (m : AppModel) (c : Nat), m.table_items = [] →
      m.selected = some c → c < USIZE - 1 →
      update w m .SelectNext = .ok { m with selected := some (c + 1) } []) ∧
    (∀ (w : Except String Unit) (m : AppModel) (c : Nat), m.selected = some c →
      m.table_items.length ≤ c →
      update w m .ToggleSelectItemAndSelectNext = .fatal "index out of bounds") := by
  refine ⟨?_, ?_, ?_⟩
  · intro w m _ h2
    show update w m .SelectPrevious = .ok m []
    unfold update
    rcases h2 with h2 | h2 <;> rw [h2] <;> simp
  · intro w m c h1 h2 h3
    show update w m .SelectNext = .ok { m with selected := some (c + 1) } []
    unfold update
    rw [h1, h2]
    have hsub : usizeSub1 ([] : List Endpoint).length = USIZE - 1 := by
      unfold usizeSub1
      simp [USIZE]
    rw [hsub]
    simp [h3]
  · intro w m c h1 h2
    show update w m .ToggleSelectItemAndSelectNext = .fatal "index out of bounds"
    unfold update
    rw [h1]
    have hget : m.table_items[c]? = none := List.getElem?_eq_none h2
    simp [hget]

/-- C9 witness: the amended behaviours at concrete states — select_previous on
the empty startup model is a no-op, select_next on it advances the cursor to
1, and a toggle with the cursor at 5 on an empty list panics. -/
theorem C9_empty_list_behaviour_witness :
    update (Except.ok ()) emptyModel .SelectPrevious = .ok emptyModel [] ∧
    update (Except.ok ()) emptyModel .SelectNext =
      .ok { emptyModel with selected := some 1 } [] ∧
    update (Except.ok ()) { table_items := [], selected := some 5, running_state := .Running }
      .ToggleSelectItemAndSelectNext = .fatal "index out of bounds" :=
  ⟨C9_empty_list_behaviour.1 (Except.ok ()) emptyModel rfl (Or.inl rfl),
   C9_empty_list_behaviour.2.1 (Except.ok ()) emptyModel 0 rfl rfl (by decide),
   C9_empty_list_behaviour.2.2 (Except.ok ())
     { table_items := [], selected := some 5, running_state := .Running } 5 rfl (by decide)⟩

/-- C1: for every document whose components.schemas contains members A, B, C, D
(keys pairwise distinct, as the IndexMap invariant guarantees), where A's
subtree carries a parseable reference to B, B's subtree one to C, D is
referenced by nothing (no component subtree reference parses to D and the
selection's seeds reference only A), assembling the output for that selection
retains schemas A, B and C under the output's components and omits D. -/
theorem C1_transitive_closure_retention
    (spec pm compsM sm : Mapping) (sel : List Endpoint)
    (A B C D : String) (vA vB vC vD : Value)
    (hk : keysNodup spec)
    (hp : mapGet spec (.str "paths") = some (.map pm))
    (hc : mapGet spec (.str "components") = some (.map compsM))
    (hkc : keysNodup compsM)
    (hsm : mapGet compsM (.str "schemas") = some (.map sm))
    (hksm : keysNodup sm)
    (hA : mapGet sm (.str A) = some vA)
    (hB : mapGet sm (.str B) = some vB)
    (hC : mapGet sm (.str C) = some vC)
    (_hD : mapGet sm (.str D) = some vD)
    (hDA : D ≠ A)
    (hseedA : ("schemas", A) ∈ seedPairs (initialRefs pm sel))
    (hseedOnly : ∀ q ∈ seedPairs (initialRefs pm sel), q = ("schemas", A))
    (hAB : ("schemas", B) ∈ nestedPairs compsM ("schemas", A))
    (hBC : ("schemas", C) ∈ nestedPairs compsM ("schemas", B))
    (hDnoref : ("schemas", D) ∉ compRefPairs compsM) :
    ∃ out co fs, process_spec_for_output spec sel = some out ∧
      mapGet out (.str "components") = some (.map co) ∧
      mapGet co (.str "schemas") = some (.map fs) ∧
      (Value.str A, vA) ∈ fs ∧ (Value.str B, vB) ∈ fs ∧ (Value.str C, vC) ∈ fs ∧
      ∀ v, (Value.str D, v) ∉ fs := by
  have hclM := closureOf_eq pm sel hc
  have hAcl : ("schemas", A) ∈ closureOf spec pm sel := by
    rw [hclM]
    exact collect_seed compsM _ _ hseedA
  have hBcl : ("schemas", B) ∈ closureOf spec pm sel := by
    rw [hclM] at hAcl ⊢
    exact collect_closed compsM _ _ hAcl _ hAB
  have hCcl : ("schemas", C) ∈ closureOf spec pm sel := by
    rw [hclM] at hBcl ⊢
    exact collect_closed compsM _ _ hBcl _ hBC
  have hDncl : ("schemas", D) ∉ closureOf spec pm sel := by
    rw [hclM]
    intro hmem
    rcases collect_sound compsM _ _ hmem with hseed | hcomp
    · have := hseedOnly _ hseed
      exact hDA (congrArg Prod.snd this)
    · exact hDnoref hcomp
  set cl := closureOf spec pm sel with hcl
  set sch := securitySchemesOf spec pm sel with hsch
  have hfsEq := sectionOut_eq "schemas" cl sch hksm
  have hAkeep : keepProp "schemas" cl sch (.str A, vA) := Or.inl hAcl
  have hBkeep : keepProp "schemas" cl sch (.str B, vB) := Or.inl hBcl
  have hCkeep : keepProp "schemas" cl sch (.str C, vC) := Or.inl hCcl
  have hAfs : (Value.str A, vA) ∈ sm.filter (fun kv => decide (keepProp "schemas" cl sch kv)) :=
    List.mem_filter.mpr ⟨mapGet_mem hA, decide_eq_true hAkeep⟩
  have hBfs : (Value.str B, vB) ∈ sm.filter (fun kv => decide (keepProp "schemas" cl sch kv)) :=
    List.mem_filter.mpr ⟨mapGet_mem hB, decide_eq_true hBkeep⟩
  have hCfs : (Value.str C, vC) ∈ sm.filter (fun kv => decide (keepProp "schemas" cl sch kv)) :=
    List.mem_filter.mpr ⟨mapGet_mem hC, decide_eq_true hCkeep⟩
  have hfsne : sm.filter (fun kv => decide (keepProp "schemas" cl sch kv)) ≠ [] :=
    List.ne_nil_of_mem hAfs
  have hentry : componentEntryOut cl sch (.str "schemas", .map sm) =
      some (.str "schemas", .map (sm.filter (fun kv => decide (keepProp "schemas" cl sch kv)))) := by
    rw [componentEntryOut_str, hfsEq, if_neg hfsne]
  refine ⟨_, _, _, process_eq sel hp hk, out_components hk hc, ?_, hAfs, hBfs, hCfs, ?_⟩
  · rw [filterComponents_eq cl sch hkc]
    exact mapGet_filterMap (fun kv w h => componentEntryOut_key h) hkc (mapGet_mem hsm) hentry
  · intro v hv
    obtain ⟨hvsm, hkeep⟩ := List.mem_filter.mp hv
    have hkeep' : keepProp "schemas" cl sch (.str D, v) := of_decide_eq_true hkeep
    rcases hkeep' with hmem | ⟨hcc, _⟩
    · exact hDncl hmem
    · exact absurd hcc (by decide)

/-- C1 witness: the concrete A → B → C chain with unreferenced D; assembly
keeps A, B and C (the surviving schemas section is `fsC1`, which has no D
entry). -/
theorem C1_transitive_closure_retention_witness :
    ("schemas", "A") ∈ seedPairs (initialRefs pathsC1 selC1) ∧
    ("schemas", "B") ∈ nestedPairs compsMC1 ("schemas", "A") ∧
    process_spec_for_output specC1 selC1 = some outC1 ∧
    (Value.str "A", Value.map [(.str "properties", .map [(.str "b", .map
      [(.str "$ref", .str "#/components/schemas/B")])])]) ∈ fsC1 ∧
    (Value.str "B", Value.map [(.str "$ref", .str "#/components/schemas/C")]) ∈ fsC1 ∧
    (Value.str "C", Value.map []) ∈ fsC1 := by
  obtain ⟨out, co, fs, hout, hco, hfs, hA, hB, hC, -⟩ :=
    C1_transitive_closure_retention specC1 pathsC1 compsMC1 smC1 selC1 "A" "B" "C" "D"
      (.map [(.str "properties", .map [(.str "b", .map
        [(.str "$ref", .str "#/components/schemas/B")])])])
      (.map [(.str "$ref", .str "#/components/schemas/C")])
      (.map []) (.map [])
      (by decide) (by decide) (by decide) (by decide) (by decide) (by decide)
      (by decide) (by decide) (by decide) (by decide) (by decide)
      (by decide) (by decide) (by decide) (by decide) (by decide)
  have hout' : process_spec_for_output specC1 selC1 = some outC1 := by decide
  rw [hout'] at hout
  obtain rfl := Option.some.inj hout
  have hco' : mapGet outC1 (.str "components") = some (.map coC1) := by decide
  rw [hco'] at hco
  have hcoEq : co = coC1 := by
    have := Option.some.inj hco
    injection this.symm
  subst hcoEq
  have hfs' : mapGet coC1 (.str "schemas") = some (.map fsC1) := by decide
  rw [hfs'] at hfs
  have hfsEq : fs = fsC1 := by
    have := Option.some.inj hfs
    injection this.symm
  subst hfsEq
  exact ⟨by decide, by decide, hout', hA, hB, hC⟩

/-- C5: every security scheme name appearing as a key in a selected
operation's security requirement (list-of-mappings or mapping form) or in the
document's top-level security requirement is retained as a member of the
output's components.securitySchemes, even when no $ref anywhere points to
it. -/
theorem C5_security_scheme_retention
    (spec pm compsM ssM : Mapping) (sel : List Endpoint) (sname : String) (sv : Value)
    (hk : keysNodup spec)
    (hp : mapGet spec (.str "paths") = some (.map pm))
    (hc : mapGet spec (.str "components") = some (.map compsM))
    (hkc : keysNodup compsM)
    (hss : mapGet compsM (.str "securitySchemes") = some (.map ssM))
    (hkss : keysNodup ssM)
    (hmem : mapGet ssM (.str sname) = some sv)
    (hsch : sname ∈ securitySchemesOf spec pm sel) :
    ∃ out co fs, process_spec_for_output spec sel = some out ∧
      mapGet out (.str "components") = some (.map co) ∧
      mapGet co (.str "securitySchemes") = some (.map fs) ∧
      (Value.str sname, sv) ∈ fs := by
  set cl := closureOf spec pm sel with hcl
  set sch := securitySchemesOf spec pm sel with hsch2
  have hfsEq := sectionOut_eq "securitySchemes" cl sch hkss
  have hkeep : keepProp "securitySchemes" cl sch (.str sname, sv) := Or.inr ⟨rfl, hsch⟩
  have hfs : (Value.str sname, sv) ∈
      ssM.filter (fun kv => decide (keepProp "securitySchemes" cl sch kv)) :=
    List.mem_filter.mpr ⟨mapGet_mem hmem, decide_eq_true hkeep⟩
  have hfsne : ssM.filter (fun kv => decide (keepProp "securitySchemes" cl sch kv)) ≠ [] :=
    List.ne_nil_of_mem hfs
  have hentry : componentEntryOut cl sch (.str "securitySchemes", .map ssM) =
      some (.str "securitySchemes",
        .map (ssM.filter (fun kv => decide (keepProp "securitySchemes" cl sch kv)))) := by
    rw [componentEntryOut_str, hfsEq, if_neg hfsne]
  refine ⟨_, _, _, process_eq sel hp hk, out_components hk hc, ?_, hfs⟩
  rw [filterComponents_eq cl sch hkc]
  exact mapGet_filterMap (fun kv w h => componentEntryOut_key h) hkc (mapGet_mem hss) hentry

/-- C5 witness: the basicAuth scheme is named only in the selected operation's
security requirement (no $ref to it exists in `specC5`), and survives into the
output's securitySchemes section. -/
theorem C5_security_scheme_retention_witness :
    "basicAuth" ∈ securitySchemesOf specC5 pathsC5 selC5 ∧
    process_spec_for_output specC5 selC5 = some outC5 ∧
    (Value.str "basicAuth", Value.map [(.str "type", .str "http")]) ∈ ssMC5 := by
  obtain ⟨out, co, fs, hout, hco, hfs, hmem⟩ :=
    C5_security_scheme_retention specC5 pathsC5 compsMC5 ssMC5 selC5 "basicAuth"
      (.map [(.str "type", .str "http")])
      (by decide) (by decide) (by decide) (by decide) (by decide) (by decide)
      (by decide) (by decide)
  have hout' : process_spec_for_output specC5 selC5 = some outC5 := by decide
  rw [hout'] at hout
  obtain rfl := Option.some.inj hout
  have hco' : mapGet outC5 (.str "components") = some (.map compsMC5) := by decide
  rw [hco'] at hco
  have hcoEq : co = compsMC5 := by
    have := Option.some.inj hco
    injection this.symm
  subst hcoEq
  have hfs' : mapGet compsMC5 (.str "securitySchemes") = some (.map ssMC5) := by decide
  rw [hfs'] at hfs
  have hfsEq : fs = ssMC5 := by
    have := Option.some.inj hfs
    injection this.symm
  subst hfsEq
  exact ⟨by decide, hout', hmem⟩

/-- C10: a $ref of the shape #/components/category/name whose target does not
exist under document.components never causes an error during closure
computation or assembly: the (category, name) pair is still added to the
closure set, the failed lookup is skipped silently, and the pair contributes
no member to the output document. -/
theorem C10_dangling_ref_harmless
    (spec pm : Mapping) (sel : List Endpoint) (r c n : String)
    (hk : keysNodup spec)
    (hp : mapGet spec (.str "paths") = some (.map pm))
    (hkc : keysNodup (componentsOf spec))
    (hr : r ∈ initialRefs pm sel)
    (hparse : parse_component_ref r = some (c, n))
    (hmiss : lookupComponent (componentsOf spec) (c, n) = none) :
    ∃ out, process_spec_for_output spec sel = some out ∧
      (c, n) ∈ closureOf spec pm sel ∧
      (∀ co, mapGet out (.str "components") = some (.map co) →
        ∀ fs, (Value.str c, Value.map fs) ∈ co → ∀ v, (Value.str n, v) ∉ fs) := by
  refine ⟨_, process_eq sel hp hk, ?_, ?_⟩
  · unfold closureOf
    exact collect_seed _ _ _ (List.mem_filterMap.mpr ⟨r, hr, hparse⟩)
  · intro co hco fs hfsmem v hv
    obtain ⟨⟨k0, v0⟩, hkvmem, hfeq⟩ := List.mem_map.mp (mapGet_mem hco)
    simp only [Prod.mk.injEq] at hfeq
    obtain ⟨hk1, hv1⟩ := hfeq
    subst hk1
    rw [transformVal_components] at hv1
    have hcoEq : co = filterComponents (closureOf spec pm sel) (securitySchemesOf spec pm sel) v0 := by
      injection hv1.symm
    subst hcoEq
    have hget0 : mapGet spec (.str "components") = some v0 := mem_mapGet hk hkvmem
    cases hm0 : v0.as_mapping with
    | none =>
      have : filterComponents (closureOf spec pm sel) (securitySchemesOf spec pm sel) v0 = [] := by
        unfold filterComponents
        rw [hm0]
      rw [this] at hfsmem
      simp at hfsmem
    | some cm =>
      obtain rfl : v0 = .map cm := as_mapping_eq hm0
      have hcomps : componentsOf spec = cm := componentsOf_eq hget0
      have hkcm : keysNodup cm := hcomps ▸ hkc
      rw [filterComponents_eq _ _ hkcm] at hfsmem
      obtain ⟨kv1, hkv1mem, hkv1out⟩ := List.mem_filterMap.mp hfsmem
      have hkey1 : (Value.str c) = kv1.1 := componentEntryOut_key hkv1out
      obtain ⟨k1, v1⟩ := kv1
      simp only at hkey1
      subst hkey1
      rw [componentEntryOut_str] at hkv1out
      split at hkv1out
      · simp at hkv1out
      · rename_i hne
        have hfsEq : fs = sectionOut c (closureOf spec pm sel) (securitySchemesOf spec pm sel) v1 := by
          have := Option.some.inj hkv1out
          have h2 := congrArg Prod.snd this
          simp only at h2
          injection h2.symm
        subst hfsEq
        have hget1 : mapGet cm (.str c) = some v1 := mem_mapGet hkcm hkv1mem
        cases hm1 : v1.as_mapping with
        | none =>
          unfold sectionOut at hv
          rw [hm1] at hv
          simp at hv
        | some sm2 =>
          obtain rfl : v1 = .map sm2 := as_mapping_eq hm1
          have hvsm : (Value.str n, v) ∈ sm2 := by
            unfold sectionOut at hv
            rcases filterSectionAux_subset c _ _ sm2 [] _ hv with h' | h'
            · simp at h'
            · exact h'
          rw [hcomps, lookupComponent_of_get hget1] at hmiss
          exact mapGet_none_not_mem hmiss hvsm

/-- C10 witness: the dangling reference #/components/schemas/Ghost parses, its
lookup fails, assembly still succeeds, and the pair enters the closure while
the output components stay empty. -/
theorem C10_dangling_ref_harmless_witness :
    parse_component_ref "#/components/schemas/Ghost" = some ("schemas", "Ghost") ∧
    lookupComponent (componentsOf specC10) ("schemas", "Ghost") = none ∧
    process_spec_for_output specC10 selC10 = some outC10 ∧
    ("schemas", "Ghost") ∈ closureOf specC10 pathsC10 selC10 := by
  obtain ⟨out, hout, hcl, -⟩ :=
    C10_dangling_ref_harmless specC10 pathsC10 selC10
      "#/components/schemas/Ghost" "schemas" "Ghost"
      (by decide) (by decide) (by decide) (by decide) (by decide) (by decide)
  exact ⟨by decide, by decide, by decide, hcl⟩

/-- C3 (amended): for every document (with distinct keys at each level used),
selecting all endpoints and assembling leaves the top-level key order
unchanged, and the output components retain exactly those original members
whose (category, name) pair lies in the transitive reference closure of the
selected paths — or, for the securitySchemes category, whose name appears in a
selected operation's or the top-level security requirement; members outside
that set are omitted even under full selection. -/
theorem C3_full_selection_roundtrip
    (spec pm compsM : Mapping) (items : List Endpoint)
    (hk : keysNodup spec)
    (hp : mapGet spec (.str "paths") = some (.map pm))
    (_hf : fetch_endpoints_from_spec spec = some items)
    (hc : mapGet spec (.str "components") = some (.map compsM))
    (hkc : keysNodup compsM) :
    ∃ out, process_spec_for_output spec items = some out ∧
      out.map Prod.fst = spec.map Prod.fst ∧
      ∃ co, mapGet out (.str "components") = some (.map co) ∧
        ∀ (ck : String) (sm : Mapping), mapGet compsM (.str ck) = some (.map sm) →
          keysNodup sm → ∀ (n : String) (w : Value), (Value.str n, w) ∈ sm →
            (((ck, n) ∈ closureOf spec pm items ∨
              (ck = "securitySchemes" ∧ n ∈ securitySchemesOf spec pm items)) ↔
             ∃ fs, (Value.str ck, Value.map fs) ∈ co ∧ (Value.str n, w) ∈ fs) := by
  refine ⟨_, process_eq items hp hk, mapKeys_map_transform spec, _,
    out_components hk hc, ?_⟩
  intro ck sm hsm hksm n w hw
  rw [filterComponents_eq _ _ hkc]
  constructor
  · intro hkeep
    have hkeepP : keepProp ck (closureOf spec pm items) (securitySchemesOf spec pm items)
        (.str n, w) := by
      rcases hkeep with h | h
      · exact Or.inl h
      · exact Or.inr h
    have hwfs : (Value.str n, w) ∈ sm.filter
        (fun kv => decide (keepProp ck (closureOf spec pm items)
          (securitySchemesOf spec pm items) kv)) :=
      List.mem_filter.mpr ⟨hw, decide_eq_true hkeepP⟩
    have hfsne := List.ne_nil_of_mem hwfs
    have hentry : componentEntryOut (closureOf spec pm items) (securitySchemesOf spec pm items)
        (.str ck, .map sm) =
        some (.str ck, .map (sm.filter (fun kv => decide (keepProp ck (closureOf spec pm items)
          (securitySchemesOf spec pm items) kv)))) := by
      rw [componentEntryOut_str, sectionOut_eq ck _ _ hksm, if_neg hfsne]
    exact ⟨_, List.mem_filterMap.mpr ⟨(.str ck, .map sm), mapGet_mem hsm, hentry⟩, hwfs⟩
  · rintro ⟨fs, hfsmem, hwfs⟩
    obtain ⟨kv1, hkv1mem, hkv1out⟩ := List.mem_filterMap.mp hfsmem
    have hkey1 : (Value.str ck) = kv1.1 := componentEntryOut_key hkv1out
    obtain ⟨k1, v1⟩ := kv1
    simp only at hkey1
    subst hkey1
    have hget1 : mapGet compsM (.str ck) = some v1 := mem_mapGet hkc hkv1mem
    rw [hsm] at hget1
    obtain rfl : v1 = .map sm := (Option.some.inj hget1).symm
    rw [componentEntryOut_str] at hkv1out
    split at hkv1out
    · simp at hkv1out
    · have hfsEq : fs = sectionOut ck (closureOf spec pm items)
          (securitySchemesOf spec pm items) (.map sm) := by
        have h1 := Option.some.inj hkv1out
        have h2 := congrArg Prod.snd h1
        simp only at h2
        injection h2.symm
      subst hfsEq
      rw [sectionOut_eq ck _ _ hksm] at hwfs
      obtain ⟨-, hkeep⟩ := List.mem_filter.mp hwfs
      have hkeepP := of_decide_eq_true hkeep
      rcases hkeepP with h | h
      · exact Or.inl h
      · exact Or.inr h

/-- C3 counterexample: `specC3` has the component member schemas.E, yet
selecting all endpoints and assembling produces an empty components mapping —
full selection does not reproduce every original component member. -/
theorem C3_counterexample :
    mapGet compsMC3 (.str "schemas") = some (.map [(.str "E", .map [])]) ∧
    ((fetch_endpoints_from_spec specC3).bind fun items =>
      process_spec_for_output specC3 items) = some outC3 ∧
    mapGet outC3 (.str "components") = some (.map []) := by
  refine ⟨by decide, by decide, by decide⟩

/-- C3 witness: on `specC3` the amended statement holds concretely — assembly
under the full selection succeeds and preserves the top-level key order. -/
theorem C3_full_selection_roundtrip_witness :
    fetch_endpoints_from_spec specC3 = some lC3 ∧
    process_spec_for_output specC3 lC3 = some outC3 ∧
    outC3.map Prod.fst = specC3.map Prod.fst := by
  obtain ⟨out, hout, hkeys, co, hco, -⟩ :=
    C3_full_selection_roundtrip specC3 pathsC3 compsMC3 lC3
      (by decide) (by decide) (by decide) (by decide) (by decide)
  have hout' : process_spec_for_output specC3 lC3 = some outC3 := by decide
  rw [hout'] at hout
  obtain rfl := Option.some.inj hout
  exact ⟨by decide, hout', hkeys⟩

theorem processPathEntry_spec {p ops : Value} {e : Endpoint}
    (h : processPathEntry p ops = some e) :
    ∃ ps om acc, p.as_str = some ps ∧ ops.as_mapping = some om ∧
      processOps om ⟨"", [], [], []⟩ = some acc ∧
      e.path = ps ∧ e.description = acc.description ∧ e.methods = acc.methods := by
  unfold processPathEntry at h
  cases hps : p.as_str with
  | none =>
    rw [hps] at h
    exact Option.noConfusion (show (none : Option Endpoint) = some e from h)
  | some ps =>
    rw [hps] at h
    cases hom : ops.as_mapping with
    | none =>
      rw [hom] at h
      exact Option.noConfusion (show (none : Option Endpoint) = some e from h)
    | some om =>
      rw [hom] at h
      have h2 : (processOps om ⟨"", [], [], []⟩).bind (fun acc =>
          some (Endpoint.mk acc.methods ps acc.description
            (uniqueKeepFirst (strip_path_from_references acc.refs)) .Unselected acc.params)) =
          some e := h
      cases hacc : processOps om ⟨"", [], [], []⟩ with
      | none =>
        rw [hacc] at h2
        exact Option.noConfusion (show (none : Option Endpoint) = some e from h2)
      | some acc =>
        rw [hacc] at h2
        obtain rfl := Option.some.inj (show some (Endpoint.mk acc.methods ps acc.description
          (uniqueKeepFirst (strip_path_from_references acc.refs)) .Unselected acc.params) =
          some e from h2)
        exact ⟨ps, om, acc, rfl, rfl, hacc, rfl, rfl, rfl⟩

/-- C4 (amended): for every document whose paths mapping has N distinct string
keys each mapping to a mapping, extraction returns exactly N endpoints sorted
ascending by path (byte-wise), and each endpoint's methods list contains
exactly one Method per key of its path item except `summary` keys and except a
`description` key encountered while the endpoint's accumulated description is
still empty — in particular a path-level `parameters` key, or a `description`
key following a non-empty summary, does produce a Method. -/
theorem C4_extraction_shape (spec pm : Mapping) (l : List Endpoint)
    (hp : mapGet spec (.str "paths") = some (.map pm))
    (_hnd : keysNodup pm)
    (hf : fetch_endpoints_from_spec spec = some l) :
    l.length = pm.length ∧
    List.Sorted pathLe l ∧
    ∀ e ∈ l, ∃ ov om, (Value.str e.path, ov) ∈ pm ∧ ov.as_mapping = some om ∧
      verbKeysAcc "" om = some (e.methods.map (·.method)) := by
  rw [fetch_eq hp] at hf
  cases hpp : processPaths pm with
  | none =>
    rw [hpp] at hf
    exact Option.noConfusion (show (none : Option (List Endpoint)) = some l from hf)
  | some items =>
    rw [hpp] at hf
    obtain rfl := Option.some.inj
      (show some (List.insertionSort pathLe items) = some l from hf)
    have hperm := List.perm_insertionSort pathLe items
    have hF2 := processPaths_spec hpp
    refine ⟨?_, List.sorted_insertionSort pathLe items, ?_⟩
    · rw [hperm.length_eq]
      exact hF2.length_eq.symm
    · intro e he
      have he' : e ∈ items := hperm.mem_iff.mp he
      obtain ⟨⟨k0, v0⟩, hkvmem, hkv⟩ := forall₂_mem_right hF2 e he'
      obtain ⟨ps, om, acc, hps, hom, hacc, hpath, hdesc, hmeth⟩ := processPathEntry_spec hkv
      obtain ⟨vk, hvk, hm⟩ := processOps_methods om ⟨"", [], [], []⟩ acc hacc
      have hvk' : verbKeysAcc "" om = some vk := hvk
      have hm' : acc.methods.map (·.method) = vk := by simpa using hm
      have hk0 : k0 = Value.str ps := as_str_eq hps
      refine ⟨v0, om, ?_, hom, ?_⟩
      · rw [hpath, ← hk0]
        exact hkvmem
      · rw [hvk', hmeth, hm']

/-- C4 counterexample: a path item whose only key is a path-level `parameters`
key; the claim says `parameters` never produces a Method, yet extraction
returns one Method with verb "parameters". -/
theorem C4_counterexample :
    fetch_endpoints_from_spec specC4 =
      some [{ methods := [{ method := "parameters", description := "No description" }],
              path := "/a", description := "", refs := [], status := .Unselected,
              parameters := [] }] := by decide

/-- C4 witness: two out-of-order paths with one verb key each; extraction
yields exactly two endpoints sorted ascending by path. -/
theorem C4_extraction_shape_witness :
    fetch_endpoints_from_spec specC4w = some lC4w ∧
    lC4w.length = pathsC4w.length ∧
    List.Sorted pathLe lC4w := by
  have hf : fetch_endpoints_from_spec specC4w = some lC4w := by decide
  obtain ⟨hlen, hsort, -⟩ :=
    C4_extraction_shape specC4w pathsC4w lC4w (by decide) (by decide) hf
  exact ⟨hf, hlen, hsort⟩

/-- C7 (amended): `summary` takes precedence over `description` regardless of
key order, not first-seen-wins — a path-level `summary` key whose value is a
non-empty string determines Endpoint.description even when a `description`
key was seen first, and once set this way it is never overwritten by any later
key of the same path item. -/
theorem C7_summary_overrides (spec pm ops : Mapping) (pk ov sv : Value) (ps s : String)
    (l : List Endpoint)
    (hp : mapGet spec (.str "paths") = some (.map pm))
    (hf : fetch_endpoints_from_spec spec = some l)
    (hmem : (pk, ov) ∈ pm)
    (hov : ov.as_mapping = some ops)
    (hnd : keysNodup ops)
    (hpk : pk.as_str = some ps)
    (hsum : (Value.str "summary", sv) ∈ ops)
    (hsv : sv.as_str = some s)
    (hs : s ≠ "") :
    ∃ e ∈ l, e.path = ps ∧ e.description = s := by
  rw [fetch_eq hp] at hf
  cases hpp : processPaths pm with
  | none =>
    rw [hpp] at hf
    exact Option.noConfusion (show (none : Option (List Endpoint)) = some l from hf)
  | some items =>
    rw [hpp] at hf
    obtain rfl := Option.some.inj
      (show some (List.insertionSort pathLe items) = some l from hf)
    have hF2 := processPaths_spec hpp
    obtain ⟨e, he, hkv⟩ := forall₂_mem_left hF2 (pk, ov) hmem
    obtain ⟨ps', om, acc, hps', hom', hacc, hpath, hdesc, hmeth⟩ := processPathEntry_spec hkv
    have hps'' : pk.as_str = some ps' := hps'
    have hom'' : ov.as_mapping = some om := hom'
    have hpseq : ps' = ps := by
      rw [hps''] at hpk
      exact Option.some.inj hpk
    have homeq : om = ops := by
      rw [hom''] at hov
      exact Option.some.inj hov
    subst hpseq
    rw [homeq] at hacc
    have hdesc2 : acc.description = s := processOps_summary ops _ acc sv s hnd hsum hsv hs hacc
    exact ⟨e, (List.perm_insertionSort pathLe items).mem_iff.mpr he,
      hpath, by rw [hdesc, hdesc2]⟩

/-- C7 counterexample: a path item listing `description: "d"` before
`summary: "s"`; the claim says the first-seen of the two ("d") determines
Endpoint.description, yet extraction yields description "s" — the later
summary overwrites the earlier description. -/
theorem C7_counterexample : fetch_endpoints_from_spec specC7 = some [eC7] := by decide

/-- C7 witness: on the same document the amended statement holds — the
summary value "s" wins although `description` came first. -/
theorem C7_summary_overrides_witness :
    fetch_endpoints_from_spec specC7 = some [eC7] ∧
    eC7.path = "/a" ∧ eC7.description = "s" := by
  have hf : fetch_endpoints_from_spec specC7 = some [eC7] := by decide
  obtain ⟨e, he, hpath, hdesc⟩ :=
    C7_summary_overrides specC7 pathsC7
      [(.str "description", .str "d"), (.str "summary", .str "s")]
      (.str "/a")
      (.map [(.str "description", .str "d"), (.str "summary", .str "s")])
      (.str "s") "/a" "s" [eC7]
      (by decide) hf (by decide) (by decide) (by decide) (by decide) (by decide)
      (by decide) (by decide)
  obtain rfl : e = eC7 := by
    rw [hf] at *
    exact List.mem_singleton.mp he
  exact ⟨hf, hpath, hdesc⟩

end Apisnip